import Mathlib

/-!
Verification development for the `bugsy_ontology` PDF-structure pipeline.

The pipeline turns an ordered list of styled text spans into classified
chunks (`src/chunker.py`), infers a section hierarchy from the persisted
chunk table (`src/section_hierarchy.py`), extracts hyperlink nodes/edges
(`src/hyperlink_extractor.py`) and merges all node/edge tables into one
graph (`src/graph_builder.py`).  This file embeds those modules and proves
or refutes the frozen specification claims about them.

Python floats are idealised as exact rationals (`ℚ`).  Because Batteries
marks the `ℚ` arithmetic operations `@[irreducible]`, the embedding
computes with kernel-reducible wrappers (`qadd`, `qsub`, `qmul`, `qdiv`)
built on `Rat.divInt`; the lemmas `qadd_eq` … `qdiv_eq` prove that the
wrappers agree with the ordinary `ℚ` operations, so the embedded
definitions denote genuine rational arithmetic while staying evaluable by
`decide`.
-/

namespace BugsyOntology

/-! ### Kernel-computable rational arithmetic -/

/-- Rational addition through `Rat.divInt` (kernel-reducible). -/
def qadd (a b : ℚ) : ℚ := Rat.divInt (a.num * b.den + b.num * a.den) (a.den * b.den)

/-- Rational subtraction through `Rat.divInt` (kernel-reducible). -/
def qsub (a b : ℚ) : ℚ := Rat.divInt (a.num * b.den - b.num * a.den) (a.den * b.den)

/-- Rational multiplication through `Rat.divInt` (kernel-reducible). -/
def qmul (a b : ℚ) : ℚ := Rat.divInt (a.num * b.num) (a.den * b.den)

/-- Rational division through `Rat.divInt` (kernel-reducible). -/
def qdiv (a b : ℚ) : ℚ := Rat.divInt (a.num * b.den) (b.num * a.den)

theorem num_eq_mul_den (a : ℚ) : (a.num : ℚ) = a * a.den := by
  have had : (a.den : ℚ) ≠ 0 := by exact_mod_cast a.den_nz
  exact (div_eq_iff had).mp (Rat.num_div_den a)

theorem qadd_eq (a b : ℚ) : qadd a b = a + b := by
  have had : (a.den : ℚ) ≠ 0 := by exact_mod_cast a.den_nz
  have hbd : (b.den : ℚ) ≠ 0 := by exact_mod_cast b.den_nz
  rw [qadd, Rat.divInt_eq_div]
  push_cast
  rw [div_eq_iff (mul_ne_zero had hbd), num_eq_mul_den a, num_eq_mul_den b]
  ring

theorem qsub_eq (a b : ℚ) : qsub a b = a - b := by
  have had : (a.den : ℚ) ≠ 0 := by exact_mod_cast a.den_nz
  have hbd : (b.den : ℚ) ≠ 0 := by exact_mod_cast b.den_nz
  rw [qsub, Rat.divInt_eq_div]
  push_cast
  rw [div_eq_iff (mul_ne_zero had hbd), num_eq_mul_den a, num_eq_mul_den b]
  ring

theorem qmul_eq (a b : ℚ) : qmul a b = a * b := by
  have had : (a.den : ℚ) ≠ 0 := by exact_mod_cast a.den_nz
  have hbd : (b.den : ℚ) ≠ 0 := by exact_mod_cast b.den_nz
  rw [qmul, Rat.divInt_eq_div]
  push_cast
  rw [div_eq_iff (mul_ne_zero had hbd), num_eq_mul_den a, num_eq_mul_den b]
  ring

theorem qdiv_eq (a b : ℚ) : qdiv a b = a / b := by
  rw [qdiv, Rat.divInt_eq_div]
  by_cases hb : b = 0
  · subst hb; simp
  · have hbn : (b.num : ℚ) ≠ 0 := by exact_mod_cast Rat.num_ne_zero.mpr hb
    have had : (a.den : ℚ) ≠ 0 := by exact_mod_cast a.den_nz
    have hbd : (b.den : ℚ) ≠ 0 := by exact_mod_cast b.den_nz
    push_cast
    rw [div_eq_div_iff (mul_ne_zero hbn had) hb, num_eq_mul_den a, num_eq_mul_den b]
    ring

/-- Sum of a list of rationals, via the reducible `qadd`. -/
def qsum : List ℚ → ℚ
  | [] => 0
  | x :: xs => qadd x (qsum xs)

theorem qsum_eq (l : List ℚ) : qsum l = l.sum := by
  induction l with
  | nil => rfl
  | cons x xs ih => rw [qsum, qadd_eq, ih, List.sum_cons]

/-! ### Python string primitives on character lists

Python `str` operations are modelled on `String.data` (the list of
characters).  Whitespace is restricted to the ASCII whitespace characters
Python's `str.strip` and the regex class `\s` both accept; the rare
non-ASCII Unicode whitespace code points are not modelled.  `str.lower`
is modelled for ASCII and the Russian alphabet, the only scripts the
classifier's reference markers use. -/

/-- ASCII whitespace as accepted by Python `str.strip` and the regex `\s`. -/
def pySpace (c : Char) : Bool :=
  c == ' ' || c == '\t' || c == '\n' || c == '\r' || c == Char.ofNat 11 || c == Char.ofNat 12

/-- Python `str.strip()`. -/
def pyStrip (s : String) : String :=
  String.mk (((s.data.dropWhile pySpace).reverse.dropWhile pySpace).reverse)

/-- Python `str.lstrip()`. -/
def pyLStrip (s : String) : String :=
  String.mk (s.data.dropWhile pySpace)

/-- Python `str.lower()` on one character (ASCII and Cyrillic А-Я/Ё). -/
def pyLowerChar (c : Char) : Char :=
  if 'A' ≤ c ∧ c ≤ 'Z' then Char.ofNat (c.toNat + 32)
  else if 'А' ≤ c ∧ c ≤ 'Я' then Char.ofNat (c.toNat + 32)
  else if c = 'Ё' then 'ё'
  else c

/-- Python `str.lower()`. -/
def pyLower (s : String) : String :=
  String.mk (s.data.map pyLowerChar)

/-- Does `l` start with `pre`?  (`listStarts pre l`.) -/
def listStarts : List Char → List Char → Bool
  | [], _ => true
  | _ :: _, [] => false
  | a :: as, b :: bs => a == b && listStarts as bs

/-- Python `str.startswith`. -/
def pyStarts (s pre : String) : Bool :=
  listStarts pre.data s.data

/-- Does `needle` occur contiguously in `hay`?  Models Python's
`needle in hay` on strings. -/
def listHasSub (needle : List Char) : List Char → Bool
  | [] => listStarts needle []
  | c :: rest => listStarts needle (c :: rest) || listHasSub needle rest

/-- Python `needle in hay` for strings. -/
def pyContains (hay needle : String) : Bool :=
  listHasSub needle.data hay.data

/-- Python `str.isdigit` (restricted to ASCII digits). -/
def pyIsDigit (s : String) : Bool :=
  !s.data.isEmpty && s.data.all Char.isDigit

/-- Does Python `int(s)` succeed on an already-stripped `s`?  Modelled as an
optional sign followed by ASCII digits (numeric-literal underscores and
non-ASCII digits are not modelled). -/
def pyIntParses (s : String) : Bool :=
  match s.data with
  | '+' :: rest => !rest.isEmpty && rest.all Char.isDigit
  | '-' :: rest => !rest.isEmpty && rest.all Char.isDigit
  | l => !l.isEmpty && l.all Char.isDigit

/-! ### Data model: spans (`parse_pdf.py` output, input of `chunker.py`)

A span's `hyperlink_target` is either an internal page number (an `int` in
Python) or an external URL string; `None` when the span carries no link.
The `flags` field of `parse_pdf.py` is dropped: no downstream module reads
it. -/

/-- The value of a span's `hyperlink_target`. -/
inductive HVal where
  | page (n : Int)
  | uri (s : String)
deriving DecidableEq

/-- One styled text span as produced by `parse_pdf.py`. -/
structure Span where
  page : Int
  text : String
  bbox : Option (ℚ × ℚ × ℚ × ℚ)
  font : String
  size : ℚ
  color : Int
  bold : Bool
  italic : Bool
  hyperlink_target : Option HVal
deriving DecidableEq

/-- A chunk-in-progress of `group_into_chunks`: the `current_chunk` dict
with keys `lines`, `page_start`, `page_end`. -/
structure RawChunk where
  lines : List Span
  page_start : Int
  page_end : Int
deriving DecidableEq

/-! ### `chunker.group_into_chunks` -/

/-- The bare list-marker glyphs of `chunker.py` line 36. -/
def isMarkerText (s : String) : Bool :=
  s == "•" || s == "-" || s == "–" || s == "·" || s == "◦" || s == "*"

/-- The `same_style` test of `chunker.py` lines 25–31. -/
def sameStyle (prev curr : Span) : Bool :=
  curr.size == prev.size && curr.bold == prev.bold && curr.italic == prev.italic &&
    decide ((curr.color - prev.color).natAbs < 10) && curr.font == prev.font

/-- The `vertical_gap` of `chunker.py` lines 21–23: current top minus
previous bottom when both bboxes are present, else 0. -/
def vertGap (prev curr : Span) : ℚ :=
  match prev.bbox, curr.bbox with
  | some pb, some cb => qsub cb.2.1 pb.2.2.2
  | _, _ => 0

/-- The `max_gap` threshold of `chunker.py` line 33. -/
def maxGap (curr : Span) : ℚ :=
  if curr.size ≥ 13 then 10 else 6

/-- Appending span `s` to the current chunk (`chunker.py` lines 37–38 and
50–51). -/
def appendLine (g : RawChunk) (s : Span) : RawChunk :=
  { g with lines := g.lines ++ [s], page_end := s.page }

/-- The loop of `group_into_chunks` (`chunker.py` lines 16–55).  `prev` is
`spans[i-1]` and `cur` the `current_chunk` under construction; the
remaining spans are the first argument. -/
def giAux : List Span → Span → RawChunk → List RawChunk
  | [], _, cur => [cur]
  | s :: rest, prev, cur =>
    if isMarkerText (pyStrip prev.text) then
      giAux rest s (appendLine cur s)
    else if sameStyle prev s = false ∨ vertGap prev s > maxGap s then
      cur :: giAux rest s ⟨[s], s.page, s.page⟩
    else
      giAux rest s (appendLine cur s)

/-- The function `chunker.group_into_chunks`. -/
def group_into_chunks : List Span → List RawChunk
  | [] => []
  | s :: rest => giAux rest s ⟨[s], s.page, s.page⟩

/-! ### `chunker.classify_chunk` -/

/-- Python `" ".join(strings)`, also used for `"\n".join`. -/
def joinWith (sep : String) : List String → String
  | [] => ""
  | a :: t => t.foldl (fun r x => r ++ sep ++ x) a

/-- The `full_text` of `classify_chunk` / `process_structure`:
`" ".join(texts).strip()`. -/
def chunkFullText (lines : List Span) : String :=
  pyStrip (joinWith " " (lines.map (·.text)))

/-- The mean member size (`np.mean`, the `avg_size`).  The grouper never
produces an empty chunk, so the `0/0 = 0` convention is never exercised. -/
def avgSize (lines : List Span) : ℚ :=
  qdiv (qsum (lines.map (·.size))) (lines.length : ℚ)

/-- The `has_reference` test of `chunker.py` lines 66–71. -/
def hasReference (lines : List Span) : Bool :=
  lines.any fun l =>
    pyContains (pyLower l.text) "рис" || pyContains (pyLower l.text) "табл" ||
      pyContains (pyLower l.text) "см."

/-- The unordered-marker test
`full_text.lstrip().startswith(("•", "-", "–", "·", "◦", "*"))`. -/
def startsUnordered (s : String) : Bool :=
  pyStarts s "•" || pyStarts s "-" || pyStarts s "–" || pyStarts s "·" ||
    pyStarts s "◦" || pyStarts s "*"

/-- Whitespace class `\s` of the ordered-list regex (ASCII part). -/
def reSpace (c : Char) : Bool := pySpace c

/-- The letter alternative `[a-zа-яA-Z]` of the ordered-list regex of
`chunker.py` line 76: Latin letters of both cases but only lowercase
Cyrillic (`а`–`я`). -/
def ordLetter (c : Char) : Bool :=
  decide ('a' ≤ c ∧ c ≤ 'z') || decide ('A' ≤ c ∧ c ≤ 'Z') ||
    decide ('а' ≤ c ∧ c ≤ 'я')

/-- After the maximal digit run: `[.)]` then `\s`. -/
def afterDigits : List Char → Bool
  | p :: w :: _ => (p == '.' || p == ')') && reSpace w
  | _ => false

/-- After a single letter `c`: `)` then `\s`. -/
def letterTail (c : Char) : List Char → Bool
  | b :: w :: _ => ordLetter c && b == ')' && reSpace w
  | _ => false

/-- Matching of the anchored regex `^(\d+[.)]|[a-zа-яA-Z]\))\s` on the
character list.  Backtracking never helps this pattern: if the maximal
digit run fails, a shorter one puts a digit where `[.)]` must match, so
matching the maximal run is equivalent. -/
def ordMatchL : List Char → Bool
  | [] => false
  | c :: rest =>
    if c.isDigit then afterDigits ((c :: rest).dropWhile Char.isDigit)
    else letterTail c rest

/-- Matching of the code's anchored regex, applied to a string. -/
def ordMatch (s : String) : Bool := ordMatchL s.data

/-- The classifier `chunker.classify_chunk` (lines 59–94). -/
def classify_chunk (chunk : RawChunk) : String :=
  let lines := chunk.lines
  let full_text := chunkFullText lines
  let avg_size := avgSize lines
  let is_bold := lines.any (·.bold)
  let is_short_heading := full_text.length < 160
  let has_reference := hasReference lines
  let starts_with_unordered := startsUnordered (pyLStrip full_text)
  let starts_with_ordered := ordMatch (pyLStrip full_text)
  if starts_with_ordered then "ordered_list_item"
  else if starts_with_unordered then "list_item"
  else if avg_size ≥ 16 ∧ is_bold ∧ is_short_heading then "section_h1"
  else if Rat.divInt 27 2 ≤ avg_size ∧ avg_size < 16 ∧ is_bold ∧ is_short_heading then "section_h2"
  else if 12 ≤ avg_size ∧ avg_size < Rat.divInt 27 2 ∧ is_bold ∧ is_short_heading then "section_h3"
  else if has_reference then "reference"
  else if avg_size < 12 ∧ is_bold = false ∧ full_text.length < 100 then "caption"
  else "paragraph"

/-! ### `chunker.process_structure` and the coalescers -/

/-- A classified chunk record (`process_structure` dict / `chunks.csv`
row).  `items` is `[]` for every non-list-block chunk, whose Python dict
has no `items` key. -/
structure Chunk where
  chunk_id : String
  page_start : Int
  page_end : Int
  type : String
  font_size : ℚ
  text : String
  bbox : Option (ℚ × ℚ × ℚ × ℚ)
  hyperlink_target : Option HVal
  items : List String := []
deriving DecidableEq

/-- Python `round` to an integer: round-half-to-even on exact rationals. -/
def roundHalfEven (q : ℚ) : ℤ :=
  let f := ⌊q⌋
  if qsub q (f : ℚ) < Rat.divInt 1 2 then f
  else if Rat.divInt 1 2 < qsub q (f : ℚ) then f + 1
  else if f % 2 = 0 then f else f + 1

/-- Python `round(x, 2)` idealised on exact rationals. -/
def round2 (q : ℚ) : ℚ :=
  qdiv (roundHalfEven (qmul q 100) : ℚ) 100

/-- Python truthiness of a span's `hyperlink_target`: `None`, page `0` and
the empty string are falsy. -/
def truthyTarget : Option HVal → Option HVal
  | some (.page n) => if n = 0 then none else some (.page n)
  | some (.uri s) => if s = "" then none else some (.uri s)
  | none => none

/-- Lines 108–109 of `process_structure`: the first truthy
`hyperlink_target` among the member spans, or `None`. -/
def firstTruthy (lines : List Span) : Option HVal :=
  (lines.filterMap (fun l => truthyTarget l.hyperlink_target)).head?

/-- Zero-padding to four digits, as the chunk-id format string of
`process_structure` line 112 does. -/
def pad4 (n : Nat) : String :=
  let s := toString n
  if s.length < 4 then String.mk (List.replicate (4 - s.length) '0') ++ s else s

/-- One iteration of the `process_structure` loop (lines 101–120). -/
def mkChunkRecord (idx : Nat) (chunk : RawChunk) : Chunk :=
  { chunk_id := "ch" ++ pad4 idx
    page_start := chunk.page_start
    page_end := chunk.page_end
    type := classify_chunk chunk
    font_size := round2 (avgSize chunk.lines)
    text := chunkFullText chunk.lines
    bbox := match chunk.lines with | [] => none | l :: _ => l.bbox
    hyperlink_target := firstTruthy chunk.lines
    items := [] }

/-- The enumerated `process_structure` loop over the raw chunks. -/
def midChunks : Nat → List RawChunk → List Chunk
  | _, [] => []
  | idx, g :: rest => mkChunkRecord idx g :: midChunks (idx + 1) rest

/-- Is a chunk type one of the two list-item types (`chunker.py` line
130)? -/
def isListItemType (t : String) : Bool :=
  t == "list_item" || t == "ordered_list_item"

/-- The list block built from the run `c :: run` (`chunker.py` lines
137–147). -/
def mkListBlock (c : Chunk) (run : List Chunk) : Chunk :=
  { chunk_id := c.chunk_id
    page_start := c.page_start
    page_end := (run.getLastD c).page_end
    type := if c.type == "ordered_list_item" then "ordered_list_block" else "list_block"
    font_size := c.font_size
    text := joinWith "\n" ((c :: run).map (·.text))
    bbox := c.bbox
    hyperlink_target := none
    items := (c :: run).map (·.text) }

/-- The scanning loop of `group_lists` (`chunker.py` lines 126–151), with
a fuel argument so the definition is structural; `group_lists` supplies
`chunks.length`, which is always enough fuel. -/
def glFuel : Nat → List Chunk → List Chunk
  | _, [] => []
  | 0, l => l
  | fuel + 1, c :: rest =>
    if isListItemType c.type then
      mkListBlock c (rest.takeWhile (fun x => x.type == c.type)) ::
        glFuel fuel (rest.dropWhile (fun x => x.type == c.type))
    else
      c :: glFuel fuel rest

/-- The function `chunker.group_lists`. -/
def group_lists (chunks : List Chunk) : List Chunk :=
  glFuel chunks.length chunks

/-- The function `chunker.process_structure` (lines 97–123).  Note: it applies
`group_lists` but never `merge_adjacent_headings`. -/
def process_structure (spans : List Span) : List Chunk :=
  group_lists (midChunks 0 (group_into_chunks spans))

/-- The test `current["type"].startswith("section")` of `chunker.py`
line 159. -/
def isSectionType (t : String) : Bool :=
  pyStarts t "section"

/-- Folding a run of same-type heading chunks into the first one
(`chunker.py` lines 161–164). -/
def mergeRun (c : Chunk) (run : List Chunk) : Chunk :=
  run.foldl (fun acc x => { acc with text := acc.text ++ " " ++ x.text, page_end := x.page_end }) c

/-- The scanning loop of `merge_adjacent_headings` (`chunker.py` lines
154–170), fuelled like `glFuel`. -/
def mhFuel : Nat → List Chunk → List Chunk
  | _, [] => []
  | 0, l => l
  | fuel + 1, c :: rest =>
    if isSectionType c.type then
      mergeRun c (rest.takeWhile (fun x => x.type == c.type)) ::
        mhFuel fuel (rest.dropWhile (fun x => x.type == c.type))
    else
      c :: mhFuel fuel rest

/-- The function `chunker.merge_adjacent_headings`.  Defined in `chunker.py` but not
called from `process_structure` or anywhere else in the repository. -/
def merge_adjacent_headings (chunks : List Chunk) : List Chunk :=
  mhFuel chunks.length chunks

/-! ### `section_hierarchy.py`

The hierarchy builder works on the persisted `chunks.csv` rows.  A row is
modelled with the columns the builder reads; `bbox` is kept as the raw CSV
cell (a string).  Pandas `dropna` on `font_size` is not modelled: every
row carries a rational `font_size`, as every row written by
`process_structure` does. -/

deriving instance DecidableEq for Except

/-- One `chunks.csv` row as read by `SectionHierarchyBuilder`. -/
structure CRow where
  chunk_id : String
  page_start : Int
  page_end : Int
  type : String
  font_size : ℚ
  text : String
  bbox : String
deriving DecidableEq

/-- A `Section` node emitted by `SectionHierarchyBuilder.build`
(`section_hierarchy.py` lines 119–129). -/
structure SNode where
  id : String
  label : String
  level : Nat
  chunk_id : String
  page_start : Int
  page_end : Int
  font_size : ℚ
  text : String
  bbox : String
deriving DecidableEq

/-- A graph edge row with `source`, `target` and `relation` columns. -/
structure GEdge where
  source : String
  target : String
  relation : String
deriving DecidableEq

/-- Insertion into a strictly-descending duplicate-free list; folding it
over a list computes `sorted(set(l), reverse=True)`. -/
def insertDesc (x : ℚ) : List ℚ → List ℚ
  | [] => [x]
  | a :: t => if x = a then a :: t else if a < x then x :: a :: t else a :: insertDesc x t

/-- Computes `sorted(unique_values, reverse=True)` of `section_hierarchy.py` line
56. -/
def sortDescDedup (l : List ℚ) : List ℚ :=
  l.foldr insertDesc []

/-- The `font_size` values of the `paragraph`-typed rows
(`section_hierarchy.py` line 55–56). -/
def paraSizes (rows : List CRow) : List ℚ :=
  (rows.filter (fun r => r.type == "paragraph")).map (·.font_size)

/-- The `candidate_sizes` of line 59: the distinct paragraph font sizes,
descending, restricted to those `> 12`. -/
def candidateSizes (rows : List CRow) : List ℚ :=
  (sortDescDedup (paraSizes rows)).filter (fun s => 12 < s)

/-- The method `SectionHierarchyBuilder.detect_section_levels` (lines 42–74): the two
largest candidate sizes enumerated as levels 1 and 2; an error when no
candidate exists. -/
def detect_section_levels (rows : List CRow) : Except String (List (ℚ × Nat)) :=
  match (candidateSizes rows).take 2 with
  | [] => .error "Не найдено ни одного font_size, подходящего для уровней секций."
  | s :: rest => .ok (((s :: rest).zip [1, 2]))

/-- The helper `get_section_level` (lines 99–106): 0 for non-paragraph rows,
otherwise the level mapped to the row's font size (0 when unmapped). -/
def getSectionLevel (m : List (ℚ × Nat)) (r : CRow) : Nat :=
  if r.type == "paragraph" then
    match m.find? (fun p => p.1 == r.font_size) with
    | some p => p.2
    | none => 0
  else 0

/-- The section node built for a heading row (lines 119–129). -/
def mkSNode (sid : String) (level : Nat) (r : CRow) : SNode :=
  { id := sid, label := "Section", level := level, chunk_id := r.chunk_id,
    page_start := r.page_start, page_end := r.page_end,
    font_size := r.font_size, text := r.text, bbox := r.bbox }

/-- The row loop of `SectionHierarchyBuilder.build` (lines 109–166).  The
stack is kept head-as-top; each stack entry is `(id, level)`. -/
def hierGo (m : List (ℚ × Nat)) :
    List CRow → List (String × Nat) → List SNode → List GEdge → List SNode × List GEdge
  | [], _, nodes, edges => (nodes, edges)
  | r :: rest, stack, nodes, edges =>
    let level := getSectionLevel m r
    if level > 0 then
      let sid := "section_" ++ r.chunk_id
      let nodes' := nodes ++ [mkSNode sid level r]
      let stack' := stack.dropWhile (fun p => level ≤ p.2)
      let edges' := edges ++
        (match stack' with
         | [] => []
         | parent :: _ => [⟨parent.1, sid, "HAS_SUBSECTION"⟩]) ++
        [⟨sid, "chunk_" ++ r.chunk_id, "HAS_CHUNK"⟩]
      hierGo m rest ((sid, level) :: stack') nodes' edges'
    else
      let edges' := edges ++
        (match stack with
         | [] => []
         | current :: _ => [⟨current.1, "chunk_" ++ r.chunk_id, "HAS_CHUNK"⟩])
      hierGo m rest stack nodes edges'

/-- The method `SectionHierarchyBuilder.build` (lines 78–168): level detection (its
error is fatal for this stage), then one stack pass over the rows. -/
def hierarchyBuild (rows : List CRow) : Except String (List SNode × List GEdge) :=
  match detect_section_levels rows with
  | .error e => .error e
  | .ok m => .ok (hierGo m rows [] [] [])

/-! ### `hyperlink_extractor.py` -/

/-- One `chunks.csv` row as read by `HyperlinkExtractor`: only `chunk_id`
and the raw `hyperlink_target` cell matter (`none` models an empty/NaN
cell). -/
structure HRow where
  chunk_id : String
  hyperlink_target : Option String
deriving DecidableEq

/-- Result of `HyperlinkExtractor.classify_target`. -/
inductive TargetC where
  | noTarget
  | reference (v : String)
  | url (v : String)
deriving DecidableEq

/-- The static method `HyperlinkExtractor.classify_target` (lines 47–80). -/
def classify_target (raw : Option String) : TargetC :=
  match raw with
  | none => .noTarget
  | some r =>
    let t := pyStrip r
    if t == "" then .noTarget
    else if pyStarts t "http://" || pyStarts t "https://" then .url t
    else if pyIsDigit t then .reference t
    else if pyIntParses t then .reference t
    else .url t

/-- A hyperlink node row with `id`, `label` and `value` columns. -/
structure HNode where
  id : String
  label : String
  value : String
deriving DecidableEq

/-- The row loop of `HyperlinkExtractor.build` (lines 90–141).  `md5hex12`
abstracts `hashlib.md5(value).hexdigest()[:12]`, an external library
primitive; the claims under verification do not depend on it. -/
def hlGo (md5hex12 : String → String) :
    List HRow → List String → List String → List HNode → List GEdge → List HNode × List GEdge
  | [], _, _, nodes, edges => (nodes, edges)
  | r :: rest, seenRefs, seenUrls, nodes, edges =>
    match classify_target r.hyperlink_target with
    | .noTarget => hlGo md5hex12 rest seenRefs seenUrls nodes edges
    | .reference v =>
      let ref_id := "ref_" ++ v
      let nodes' := if ref_id ∈ seenRefs then nodes else nodes ++ [⟨ref_id, "ReferenceTarget", v⟩]
      let seenRefs' := if ref_id ∈ seenRefs then seenRefs else ref_id :: seenRefs
      hlGo md5hex12 rest seenRefs' seenUrls nodes'
        (edges ++ [⟨"chunk_" ++ r.chunk_id, ref_id, "LINKS_TO"⟩])
    | .url v =>
      let url_id := "url_" ++ md5hex12 v
      let nodes' := if url_id ∈ seenUrls then nodes else nodes ++ [⟨url_id, "Url", v⟩]
      let seenUrls' := if url_id ∈ seenUrls then seenUrls else url_id :: seenUrls
      hlGo md5hex12 rest seenRefs seenUrls' nodes'
        (edges ++ [⟨"chunk_" ++ r.chunk_id, url_id, "LINKS_TO"⟩])

/-- The method `HyperlinkExtractor.build` (lines 83–142). -/
def hyperlinkBuild (md5hex12 : String → String) (rows : List HRow) :
    List HNode × List GEdge :=
  hlGo md5hex12 rows [] [] [] []

/-! ### `graph_builder.py` -/

/-- One `chunks.csv` row as read by `GraphBuilder.build`; the cells are
kept as raw CSV strings (pandas typing is irrelevant to the claims). -/
structure GBRow where
  chunk_id : String
  page_start : String
  page_end : String
  type : String
  font_size : String
  text : String
  bbox : String
  hyperlink_target : String
  items : String
deriving DecidableEq

/-- A node of the merged graph: an id, a label and the remaining columns
as attribute pairs (a DataFrame row). -/
structure GNode where
  id : String
  label : String
  attrs : List (String × String)
deriving DecidableEq

/-- The `Chunk` node built from a `chunks.csv` row (`graph_builder.py`
lines 62–75). -/
def chunkNode (r : GBRow) : GNode :=
  { id := "chunk_" ++ r.chunk_id
    label := "Chunk"
    attrs := [("chunk_id", r.chunk_id), ("page_start", r.page_start),
              ("page_end", r.page_end), ("type", r.type),
              ("font_size", r.font_size), ("text", r.text), ("bbox", r.bbox),
              ("hyperlink_target", r.hyperlink_target), ("items_raw", r.items)] }

/-- The method `GraphBuilder.build` (lines 56–113): the chunk rows become `Chunk`
nodes, then the node tables and the edge tables are concatenated in the
fixed order of the source.  No check of any kind is performed on the
edges. -/
def gbBuild (chunks : List GBRow)
    (nodesSections nodesListItems nodesFigures nodesHyperlinks : List GNode)
    (edgesSections edgesListItems edgesFigures edgesHyperlinks : List GEdge) :
    List GNode × List GEdge :=
  (chunks.map chunkNode ++ nodesSections ++ nodesListItems ++ nodesFigures ++ nodesHyperlinks,
   edgesSections ++ edgesListItems ++ edgesFigures ++ edgesHyperlinks)

/-! ### Generic helper lemmas -/

theorem string_data_append (a b : String) : (a ++ b).data = a.data ++ b.data := rfl

theorem list_append_left_inj {α : Type} : ∀ (p a b : List α), p ++ a = p ++ b → a = b := by
  intro p
  induction p with
  | nil => intro a b h; simpa using h
  | cons c cs ih => intro a b h; exact ih a b (by simpa using h)

theorem string_append_left_inj (p a b : String) (h : p ++ a = p ++ b) : a = b := by
  have hd : p.data ++ a.data = p.data ++ b.data := congrArg String.data h
  have hab : a.data = b.data := list_append_left_inj p.data a.data b.data hd
  cases a; cases b
  exact congrArg String.mk hab

theorem url_ne_ref (x y : String) : ("url_" ++ x : String) ≠ "ref_" ++ y := by
  intro h
  have hd : 'u' :: 'r' :: 'l' :: '_' :: x.data = 'r' :: 'e' :: 'f' :: '_' :: y.data :=
    congrArg String.data h
  simp at hd

theorem mem_of_mem_dropWhileX {α : Type} {p : α → Bool} {l : List α} {a : α}
    (h : a ∈ l.dropWhile p) : a ∈ l :=
  List.Sublist.mem h (List.dropWhile_sublist p)

theorem dropWhile_head_false {α : Type} (p : α → Bool) :
    ∀ (l : List α) (b : α) (t : List α), l.dropWhile p = b :: t → p b = false := by
  intro l
  induction l with
  | nil => intro b t h; simp [List.dropWhile] at h
  | cons a l ih =>
    intro b t h
    by_cases hpa : p a
    · rw [List.dropWhile_cons_of_pos hpa] at h
      exact ih b t h
    · rw [List.dropWhile_cons_of_neg hpa] at h
      cases h
      exact Bool.eq_false_iff.mpr hpa

/-! ### Claim C1: graph assembly and edge referential integrity -/

/-- C1 counterexample: a single dangling edge (its endpoints `section_x`
and `chunk_y` resolve to no node: the assembled node set is empty) is kept
verbatim in the assembled edge set and `GraphBuilder.build` completes
normally, whereas the claim says assembly must fail with an error rather
than keep the edge. -/
theorem c1_counterexample :
    gbBuild [] [] [] [] [] [⟨"section_x", "chunk_y", "HAS_CHUNK"⟩] [] [] [] =
      ([], [⟨"section_x", "chunk_y", "HAS_CHUNK"⟩]) := by decide

/-- C1 (amended): `GraphBuilder.build` performs no referential-integrity
check at all; it returns the concatenation of the input edge tables, so
every input edge — including one whose source id matches no assembled
node, as the (satisfiable, deliberately unused) hypothesis states — is
silently kept in the output and no error is possible. -/
theorem c1_build_keeps_unresolvable_edges
    (chunks : List GBRow) (nS nL nF nH : List GNode) (eS eL eF eH : List GEdge)
    (e : GEdge) (he : e ∈ eS ++ eL ++ eF ++ eH)
    (_hdangling : ∀ n ∈ (gbBuild chunks nS nL nF nH eS eL eF eH).1, n.id ≠ e.source) :
    e ∈ (gbBuild chunks nS nL nF nH eS eL eF eH).2 := he

/-- C1 witness: the amended theorem applied to the concrete dangling
edge. -/
theorem c1_build_keeps_unresolvable_edges_witness :
    ((⟨"section_x", "chunk_y", "HAS_CHUNK"⟩ : GEdge) ∈
        ([⟨"section_x", "chunk_y", "HAS_CHUNK"⟩] : List GEdge) ++ [] ++ [] ++ []) ∧
    (∀ n ∈ (gbBuild [] [] [] [] [] [⟨"section_x", "chunk_y", "HAS_CHUNK"⟩] [] [] []).1,
        n.id ≠ (⟨"section_x", "chunk_y", "HAS_CHUNK"⟩ : GEdge).source) ∧
    (⟨"section_x", "chunk_y", "HAS_CHUNK"⟩ : GEdge) ∈
      (gbBuild [] [] [] [] [] [⟨"section_x", "chunk_y", "HAS_CHUNK"⟩] [] [] []).2 :=
  ⟨by decide, by decide,
    c1_build_keeps_unresolvable_edges [] [] [] [] [] [⟨"section_x", "chunk_y", "HAS_CHUNK"⟩]
      [] [] [] ⟨"section_x", "chunk_y", "HAS_CHUNK"⟩ (by decide) (by decide)⟩

/-! ### Claim C7: duplicate numeric hyperlink targets -/

/-- The `ReferenceTarget` node id for a numeric value (`ref_<number>`). -/
def refId (v : String) : String := "ref_" ++ v

/-- Is `n` the `ReferenceTarget` node of value `v`? -/
def isRefNode (v : String) (n : HNode) : Bool := n.id == "ref_" ++ v

/-- Is `e` a `LINKS_TO` edge into the `ReferenceTarget` node of `v`? -/
def isRefEdge (v : String) (e : GEdge) : Bool :=
  e.target == "ref_" ++ v && e.relation == "LINKS_TO"

/-- Does row `r` refer to the numeric target `v`? -/
def isRefRow (v : String) (r : HRow) : Bool :=
  classify_target r.hyperlink_target == .reference v

theorem hlGo_ref_inv (md5 : String → String) (v : String) :
    ∀ (rows : List HRow) (seenRefs seenUrls : List String) (nodes : List HNode)
      (edges : List GEdge),
      ((nodes.filter (isRefNode v)).length = if ("ref_" ++ v : String) ∈ seenRefs then 1 else 0) →
      (∀ n ∈ nodes, n.id = "ref_" ++ v → n.label = "ReferenceTarget" ∧ n.value = v) →
      (((hlGo md5 rows seenRefs seenUrls nodes edges).1.filter (isRefNode v)).length =
        if ("ref_" ++ v : String) ∈ seenRefs ∨ ∃ r ∈ rows, isRefRow v r then 1 else 0) ∧
      (∀ n ∈ (hlGo md5 rows seenRefs seenUrls nodes edges).1, n.id = "ref_" ++ v →
        n.label = "ReferenceTarget" ∧ n.value = v) ∧
      ((hlGo md5 rows seenRefs seenUrls nodes edges).2.filter (isRefEdge v)).length =
        (edges.filter (isRefEdge v)).length + (rows.filter (isRefRow v)).length := by
  intro rows
  induction rows with
  | nil =>
    intro seenRefs seenUrls nodes edges h1 h2
    refine ⟨by simpa [hlGo] using h1, by simpa [hlGo] using h2, by simp [hlGo]⟩
  | cons r rest ih =>
    intro seenRefs seenUrls nodes edges h1 h2
    cases hct : classify_target r.hyperlink_target with
    | noTarget =>
      have hrow : isRefRow v r = false := by
        apply Bool.eq_false_iff.mpr
        intro hcon
        have h' := eq_of_beq hcon
        rw [hct] at h'
        cases h'
      simp only [hlGo, hct]
      have H := ih seenRefs seenUrls nodes edges h1 h2
      exact ⟨by simpa [hrow] using H.1, H.2.1, by simpa [hrow] using H.2.2⟩
    | reference w =>
      simp only [hlGo, hct]
      by_cases hw : w = v
      · subst hw
        -- the row refers exactly to the value under study
        have hrow : isRefRow w r = true := by simp [isRefRow, hct]
        have hed : isRefEdge w (⟨"chunk_" ++ r.chunk_id, "ref_" ++ w, "LINKS_TO"⟩ : GEdge) = true := by
          simp [isRefEdge]
        by_cases hseen : ("ref_" ++ w : String) ∈ seenRefs
        · rw [if_pos hseen, if_pos hseen]
          have H := ih seenRefs seenUrls nodes
            (edges ++ [⟨"chunk_" ++ r.chunk_id, "ref_" ++ w, "LINKS_TO"⟩]) h1 h2
          refine ⟨?_, H.2.1, ?_⟩
          · rw [H.1, if_pos (Or.inl hseen), if_pos (Or.inl hseen)]
          · rw [H.2.2]
            simp [List.filter_append, hed, List.filter_cons, hrow]
            omega
        · rw [if_neg hseen, if_neg hseen]
          have h1' : (((nodes ++ [(⟨"ref_" ++ w, "ReferenceTarget", w⟩ : HNode)]).filter
                (isRefNode w)).length =
              if ("ref_" ++ w : String) ∈ ("ref_" ++ w) :: seenRefs then 1 else 0) := by
            have hx : isRefNode w (⟨"ref_" ++ w, "ReferenceTarget", w⟩ : HNode) = true := by
              simp [isRefNode]
            rw [if_pos (List.mem_cons_self _ _)]
            simp [List.filter_append, hx, h1, hseen]
          have h2' : ∀ n ∈ nodes ++ [(⟨"ref_" ++ w, "ReferenceTarget", w⟩ : HNode)],
              n.id = "ref_" ++ w → n.label = "ReferenceTarget" ∧ n.value = w := by
            intro n hn hid
            rcases List.mem_append.mp hn with hn | hn
            · exact h2 n hn hid
            · simp only [List.mem_singleton] at hn
              subst hn
              exact ⟨rfl, rfl⟩
          have H := ih (("ref_" ++ w) :: seenRefs) seenUrls
            (nodes ++ [⟨"ref_" ++ w, "ReferenceTarget", w⟩])
            (edges ++ [⟨"chunk_" ++ r.chunk_id, "ref_" ++ w, "LINKS_TO"⟩]) h1' h2'
          refine ⟨?_, H.2.1, ?_⟩
          · rw [H.1, if_pos (Or.inl (List.mem_cons_self _ _)),
              if_pos (Or.inr ⟨r, List.mem_cons_self _ _, hrow⟩)]
          · rw [H.2.2]
            simp [List.filter_append, hed, List.filter_cons, hrow]
            omega
      · -- a reference to a different value: the `v`-counts are untouched
        have hrow : isRefRow v r = false := by
          apply Bool.eq_false_iff.mpr
          intro hcon
          have h' := eq_of_beq hcon
          rw [hct] at h'
          injection h' with h''
          exact hw h''
        have hne : ("ref_" ++ w : String) ≠ "ref_" ++ v :=
          fun h => hw (string_append_left_inj "ref_" w v h)
        have hed : isRefEdge v (⟨"chunk_" ++ r.chunk_id, "ref_" ++ w, "LINKS_TO"⟩ : GEdge) = false := by
          simp [isRefEdge, hne]
        by_cases hseen : ("ref_" ++ w : String) ∈ seenRefs
        · rw [if_pos hseen, if_pos hseen]
          have H := ih seenRefs seenUrls nodes
            (edges ++ [⟨"chunk_" ++ r.chunk_id, "ref_" ++ w, "LINKS_TO"⟩]) h1 h2
          refine ⟨by simpa [hrow] using H.1, H.2.1, ?_⟩
          rw [H.2.2]
          simp [List.filter_append, hed, List.filter_cons, hrow]
        · rw [if_neg hseen, if_neg hseen]
          have h1' : (((nodes ++ [(⟨"ref_" ++ w, "ReferenceTarget", w⟩ : HNode)]).filter
                (isRefNode v)).length =
              if ("ref_" ++ v : String) ∈ ("ref_" ++ w) :: seenRefs then 1 else 0) := by
            have hx : isRefNode v (⟨"ref_" ++ w, "ReferenceTarget", w⟩ : HNode) = false := by
              simp [isRefNode, hne]
            have hmem : (("ref_" ++ v : String) ∈ ("ref_" ++ w) :: seenRefs) ↔
                ("ref_" ++ v : String) ∈ seenRefs := by
              simp only [List.mem_cons]
              exact ⟨fun h => h.elim (fun h => absurd h.symm hne) id, Or.inr⟩
            rw [if_congr hmem rfl rfl]
            simp [List.filter_append, hx, h1]
          have h2' : ∀ n ∈ nodes ++ [(⟨"ref_" ++ w, "ReferenceTarget", w⟩ : HNode)],
              n.id = "ref_" ++ v → n.label = "ReferenceTarget" ∧ n.value = v := by
            intro n hn hid
            rcases List.mem_append.mp hn with hn | hn
            · exact h2 n hn hid
            · simp only [List.mem_singleton] at hn
              subst hn
              exact absurd hid hne
          have H := ih (("ref_" ++ w) :: seenRefs) seenUrls
            (nodes ++ [⟨"ref_" ++ w, "ReferenceTarget", w⟩])
            (edges ++ [⟨"chunk_" ++ r.chunk_id, "ref_" ++ w, "LINKS_TO"⟩]) h1' h2'
          refine ⟨?_, H.2.1, ?_⟩
          · rw [H.1]
            have hcond : (("ref_" ++ v : String) ∈ ("ref_" ++ w) :: seenRefs ∨
                  ∃ x ∈ rest, isRefRow v x = true) ↔
                (("ref_" ++ v : String) ∈ seenRefs ∨ ∃ x ∈ r :: rest, isRefRow v x = true) := by
              constructor
              · rintro (h | h)
                · rcases List.mem_cons.mp h with h | h
                  · exact absurd h hne.symm
                  · exact Or.inl h
                · exact Or.inr ⟨h.choose, List.mem_cons_of_mem _ h.choose_spec.1, h.choose_spec.2⟩
              · rintro (h | h)
                · exact Or.inl (List.mem_cons_of_mem _ h)
                · obtain ⟨x, hx, hxr⟩ := h
                  rcases List.mem_cons.mp hx with rfl | hx
                  · rw [hrow] at hxr; cases hxr
                  · exact Or.inr ⟨x, hx, hxr⟩
            rw [if_congr hcond rfl rfl]
          · rw [H.2.2]
            simp [List.filter_append, hed, List.filter_cons, hrow]
    | url w =>
      have hrow : isRefRow v r = false := by
        apply Bool.eq_false_iff.mpr
        intro hcon
        have h' := eq_of_beq hcon
        rw [hct] at h'
        cases h'
      have hne : ("url_" ++ md5 w : String) ≠ "ref_" ++ v := url_ne_ref (md5 w) v
      have hed : isRefEdge v (⟨"chunk_" ++ r.chunk_id, "url_" ++ md5 w, "LINKS_TO"⟩ : GEdge) = false := by
        simp [isRefEdge, hne]
      simp only [hlGo, hct]
      by_cases hseen : ("url_" ++ md5 w : String) ∈ seenUrls
      · rw [if_pos hseen, if_pos hseen]
        have H := ih seenRefs seenUrls nodes
          (edges ++ [⟨"chunk_" ++ r.chunk_id, "url_" ++ md5 w, "LINKS_TO"⟩]) h1 h2
        refine ⟨by simpa [hrow] using H.1, H.2.1, ?_⟩
        rw [H.2.2]
        simp [List.filter_append, hed, List.filter_cons, hrow]
      · rw [if_neg hseen, if_neg hseen]
        have h1' : (((nodes ++ [(⟨"url_" ++ md5 w, "Url", w⟩ : HNode)]).filter (isRefNode v)).length =
            if ("ref_" ++ v : String) ∈ seenRefs then 1 else 0) := by
          have hx : isRefNode v (⟨"url_" ++ md5 w, "Url", w⟩ : HNode) = false := by
            simp [isRefNode, hne]
          simp [List.filter_append, hx, h1]
        have h2' : ∀ n ∈ nodes ++ [(⟨"url_" ++ md5 w, "Url", w⟩ : HNode)],
            n.id = "ref_" ++ v → n.label = "ReferenceTarget" ∧ n.value = v := by
          intro n hn hid
          rcases List.mem_append.mp hn with hn | hn
          · exact h2 n hn hid
          · simp only [List.mem_singleton] at hn
            subst hn
            exact absurd hid hne
        have H := ih seenRefs (("url_" ++ md5 w) :: seenUrls)
          (nodes ++ [⟨"url_" ++ md5 w, "Url", w⟩])
          (edges ++ [⟨"chunk_" ++ r.chunk_id, "url_" ++ md5 w, "LINKS_TO"⟩]) h1' h2'
        refine ⟨by simpa [hrow] using H.1, H.2.1, ?_⟩
        rw [H.2.2]
        simp [List.filter_append, hed, List.filter_cons, hrow]

/-- C7: when the same numeric hyperlink target `v` occurs in at least two
chunks, `HyperlinkExtractor.build` emits exactly one `ReferenceTarget`
node with id `ref_<v>` (any node carrying that id has label
`ReferenceTarget` and value `v`; later duplicates are dropped without
error), while every referring chunk still contributes its own `LINKS_TO`
edge into that node. -/
theorem c7_duplicate_ref_target (md5 : String → String) (rows : List HRow) (v : String)
    (hdup : 2 ≤ (rows.filter (isRefRow v)).length) :
    (((hyperlinkBuild md5 rows).1.filter (isRefNode v)).length = 1) ∧
    (∀ n ∈ (hyperlinkBuild md5 rows).1, n.id = refId v →
      n.label = "ReferenceTarget" ∧ n.value = v) ∧
    ((hyperlinkBuild md5 rows).2.filter (isRefEdge v)).length =
      (rows.filter (isRefRow v)).length := by
  have hex : ∃ r ∈ rows, isRefRow v r := by
    rcases hfe : rows.filter (isRefRow v) with _ | ⟨r0, t0⟩
    · rw [hfe] at hdup; simp at hdup
    · have : r0 ∈ rows.filter (isRefRow v) := by rw [hfe]; exact List.mem_cons_self r0 t0
      exact ⟨r0, List.mem_of_mem_filter this, List.of_mem_filter this⟩
  have := hlGo_ref_inv md5 v rows [] [] [] [] (by simp) (by simp)
  refine ⟨?_, this.2.1, by simpa [hyperlinkBuild] using this.2.2⟩
  have h1 := this.1
  rw [if_pos (Or.inr hex)] at h1
  simpa [hyperlinkBuild] using h1

/-- C7 witness: two rows referring to the numeric target `12`. -/
theorem c7_duplicate_ref_target_witness :
    (2 ≤ (([⟨"a", some "12"⟩, ⟨"b", some "12"⟩] : List HRow).filter (isRefRow "12")).length) ∧
    (((hyperlinkBuild (fun _ => "") [⟨"a", some "12"⟩, ⟨"b", some "12"⟩]).1.filter
        (isRefNode "12")).length = 1) ∧
    (∀ n ∈ (hyperlinkBuild (fun _ => "") [⟨"a", some "12"⟩, ⟨"b", some "12"⟩]).1,
      n.id = refId "12" → n.label = "ReferenceTarget" ∧ n.value = "12") ∧
    ((hyperlinkBuild (fun _ => "") [⟨"a", some "12"⟩, ⟨"b", some "12"⟩]).2.filter
        (isRefEdge "12")).length =
      (([⟨"a", some "12"⟩, ⟨"b", some "12"⟩] : List HRow).filter (isRefRow "12")).length :=
  ⟨by decide, c7_duplicate_ref_target (fun _ => "") [⟨"a", some "12"⟩, ⟨"b", some "12"⟩] "12"
    (by decide)⟩

/-! ### Claim C10: the span grouper partitions its input -/

theorem giAux_join : ∀ (rest : List Span) (prev : Span) (cur : RawChunk),
    ((giAux rest prev cur).map RawChunk.lines).flatten = cur.lines ++ rest := by
  intro rest
  induction rest with
  | nil => intro prev cur; simp [giAux]
  | cons s rest' ih =>
    intro prev cur
    by_cases hm : isMarkerText (pyStrip prev.text) = true
    · rw [giAux, if_pos hm, ih]
      simp [appendLine]
    · by_cases hsp : sameStyle prev s = false ∨ vertGap prev s > maxGap s
      · rw [giAux, if_neg hm, if_pos hsp]
        simp only [List.map_cons, List.flatten_cons, ih]
        simp
      · rw [giAux, if_neg hm, if_neg hsp, ih]
        simp [appendLine]

theorem giAux_ne_nil : ∀ (rest : List Span) (prev : Span) (cur : RawChunk),
    giAux rest prev cur ≠ [] := by
  intro rest
  induction rest with
  | nil => intro prev cur; simp [giAux]
  | cons s rest' ih =>
    intro prev cur
    by_cases hm : isMarkerText (pyStrip prev.text) = true
    · rw [giAux, if_pos hm]; exact ih s _
    · by_cases hsp : sameStyle prev s = false ∨ vertGap prev s > maxGap s
      · rw [giAux, if_neg hm, if_pos hsp]; exact List.cons_ne_nil _ _
      · rw [giAux, if_neg hm, if_neg hsp]; exact ih s _

/-- C10: `group_into_chunks` partitions its input: concatenating the
`lines` of the produced groups in order yields exactly the input span
list (no span dropped, duplicated or reordered), the empty input yields
no group, and every non-empty input yields at least one group. -/
theorem c10_group_into_chunks_partition (spans : List Span) :
    ((group_into_chunks spans).map RawChunk.lines).flatten = spans ∧
    (group_into_chunks spans = [] ↔ spans = []) := by
  cases spans with
  | nil => simp [group_into_chunks]
  | cons s rest =>
    constructor
    · show ((giAux rest s ⟨[s], s.page, s.page⟩).map RawChunk.lines).flatten = s :: rest
      rw [giAux_join]
      rfl
    · constructor
      · intro h
        exact absurd h (giAux_ne_nil rest s _)
      · intro h
        cases h

/-! ### Claim C9: bare marker glyphs never end a group -/

/-- Spans `a` and `b` sit next to each other inside one produced group. -/
def adjacentIn (gs : List RawChunk) (a b : Span) : Prop :=
  ∃ g ∈ gs, ∃ pre post, g.lines = pre ++ a :: b :: post

theorem giAux_extends : ∀ (rest : List Span) (prev : Span) (cur : RawChunk),
    ∃ g ∈ giAux rest prev cur, ∃ t, g.lines = cur.lines ++ t := by
  intro rest
  induction rest with
  | nil =>
    intro prev cur
    exact ⟨cur, by simp [giAux], [], by simp⟩
  | cons s rest' ih =>
    intro prev cur
    by_cases hm : isMarkerText (pyStrip prev.text) = true
    · obtain ⟨g, hg, t, ht⟩ := ih s (appendLine cur s)
      refine ⟨g, ?_, [s] ++ t, ?_⟩
      · rw [giAux, if_pos hm]; exact hg
      · rw [ht]; simp [appendLine]
    · by_cases hsp : sameStyle prev s = false ∨ vertGap prev s > maxGap s
      · refine ⟨cur, ?_, [], by simp⟩
        rw [giAux, if_neg hm, if_pos hsp]
        exact List.mem_cons_self _ _
      · obtain ⟨g, hg, t, ht⟩ := ih s (appendLine cur s)
        refine ⟨g, ?_, [s] ++ t, ?_⟩
        · rw [giAux, if_neg hm, if_neg hsp]; exact hg
        · rw [ht]; simp [appendLine]

theorem giAux_marker_adjacent :
    ∀ (rest : List Span) (prev : Span) (cur : RawChunk),
      (∃ c, cur.lines = c ++ [prev]) →
      ∀ (pre : List Span) (l r : Span) (post : List Span),
        prev :: rest = pre ++ l :: r :: post →
        isMarkerText (pyStrip l.text) = true →
        adjacentIn (giAux rest prev cur) l r := by
  intro rest
  induction rest with
  | nil =>
    intro prev cur hcur pre l r post heq hmark
    exfalso
    have := congrArg List.length heq
    simp [List.length_append] at this
    omega
  | cons s rest' ih =>
    intro prev cur hcur pre l r post heq hmark
    cases pre with
    | nil =>
      simp only [List.nil_append] at heq
      injection heq with h1 h'
      injection h' with h2 h3
      subst h1
      subst h2
      rw [giAux, if_pos hmark]
      obtain ⟨g, hg, t, ht⟩ := giAux_extends rest' s (appendLine cur s)
      obtain ⟨c, hc⟩ := hcur
      refine ⟨g, hg, c, t, ?_⟩
      rw [ht]
      simp [appendLine, hc]
    | cons x pre' =>
      injection heq with h1 h'
      by_cases hm : isMarkerText (pyStrip prev.text) = true
      · rw [giAux, if_pos hm]
        exact ih s (appendLine cur s) ⟨cur.lines, by simp [appendLine]⟩ pre' l r post h' hmark
      · by_cases hsp : sameStyle prev s = false ∨ vertGap prev s > maxGap s
        · rw [giAux, if_neg hm, if_pos hsp]
          obtain ⟨g, hg, pr, po, hlines⟩ :=
            ih s ⟨[s], s.page, s.page⟩ ⟨[], rfl⟩ pre' l r post h' hmark
          exact ⟨g, List.mem_cons_of_mem _ hg, pr, po, hlines⟩
        · rw [giAux, if_neg hm, if_neg hsp]
          exact ih s (appendLine cur s) ⟨cur.lines, by simp [appendLine]⟩ pre' l r post h' hmark

/-- C9: whenever the trimmed text of a span is one of the bare marker
glyphs `•`, `-`, `–`, `·`, `◦`, `*`, the following span is placed in the
same group, regardless of style equality and vertical gap: the two spans
end up adjacent inside one group's `lines`. -/
theorem c9_marker_merged (spans pre post : List Span) (l r : Span)
    (hsplit : spans = pre ++ l :: r :: post)
    (hmark : isMarkerText (pyStrip l.text) = true) :
    adjacentIn (group_into_chunks spans) l r := by
  subst hsplit
  cases pre with
  | nil =>
    show adjacentIn (giAux (r :: post) l ⟨[l], l.page, l.page⟩) l r
    exact giAux_marker_adjacent (r :: post) l _ ⟨[], rfl⟩ [] l r post rfl hmark
  | cons x pre' =>
    show adjacentIn (giAux (pre' ++ l :: r :: post) x ⟨[x], x.page, x.page⟩) l r
    exact giAux_marker_adjacent _ x _ ⟨[], rfl⟩ (x :: pre') l r post rfl hmark

/-- A bare bullet-marker span (different style from the item text). -/
def markerSpan : Span :=
  { page := 1, text := "•", bbox := none, font := "Symbol", size := 9, color := 0,
    bold := true, italic := false, hyperlink_target := none }

/-- The item-text span following [[markerSpan]]. -/
def itemSpan : Span :=
  { page := 1, text := "пункт списка", bbox := none, font := "Times", size := 11, color := 0,
    bold := false, italic := false, hyperlink_target := none }

/-- C9 witness: a marker span of a different font, size and boldness than
the following text span still lands in the same group. -/
theorem c9_marker_merged_witness :
    ([markerSpan, itemSpan] = ([] : List Span) ++ markerSpan :: itemSpan :: []) ∧
    isMarkerText (pyStrip markerSpan.text) = true ∧
    adjacentIn (group_into_chunks [markerSpan, itemSpan]) markerSpan itemSpan :=
  ⟨rfl, by decide, c9_marker_merged [markerSpan, itemSpan] [] [] markerSpan itemSpan rfl (by decide)⟩

/-! ### Claim C6: list blocks and the item round trip -/

theorem glFuel_mem : ∀ (fuel : Nat) (l : List Chunk), l.length ≤ fuel → ∀ b ∈ glFuel fuel l,
    (b ∈ l ∧ isListItemType b.type = false) ∨
    (∃ c run pre post, l = pre ++ (c :: run) ++ post ∧ isListItemType c.type = true ∧
      (∀ x ∈ run, x.type = c.type) ∧ b = mkListBlock c run) := by
  intro fuel
  induction fuel with
  | zero =>
    intro l hl b hb
    have : l = [] := List.length_eq_zero.mp (Nat.le_zero.mp hl)
    subst this
    simp [glFuel] at hb
  | succ fuel ih =>
    intro l hl b hb
    cases l with
    | nil => simp [glFuel] at hb
    | cons c rest =>
      have hrest : rest.length ≤ fuel := by simp at hl; omega
      by_cases hc : isListItemType c.type = true
      · simp only [glFuel] at hb
        rw [if_pos hc] at hb
        rcases List.mem_cons.mp hb with hb | hb
        · right
          refine ⟨c, rest.takeWhile (fun x => x.type == c.type), [],
            rest.dropWhile (fun x => x.type == c.type), ?_, hc, ?_, hb⟩
          · simp [List.takeWhile_append_dropWhile]
          · intro x hx
            have hbeq := List.mem_takeWhile_imp hx
            exact eq_of_beq hbeq
        · have hdw : (rest.dropWhile (fun x => x.type == c.type)).length ≤ fuel :=
            le_trans (List.dropWhile_sublist _).length_le hrest
          rcases ih _ hdw b hb with ⟨hmem, hnl⟩ | ⟨c', run', pre', post', hdec, hty, hall, hbe⟩
          · exact Or.inl ⟨List.mem_cons_of_mem _ (mem_of_mem_dropWhileX hmem), hnl⟩
          · right
            refine ⟨c', run', c :: rest.takeWhile (fun x => x.type == c.type) ++ pre', post',
              ?_, hty, hall, hbe⟩
            have hsplit : rest = rest.takeWhile (fun x => x.type == c.type) ++
                rest.dropWhile (fun x => x.type == c.type) :=
              (List.takeWhile_append_dropWhile ..).symm
            conv_lhs => rw [hsplit, hdec]
            simp
      · simp only [glFuel] at hb
        rw [if_neg hc] at hb
        rcases List.mem_cons.mp hb with rfl | hb
        · exact Or.inl ⟨List.mem_cons_self _ _, Bool.eq_false_iff.mpr hc⟩
        · rcases ih rest hrest b hb with ⟨hmem, hnl⟩ | ⟨c', run', pre', post', hdec, hty, hall, hbe⟩
          · exact Or.inl ⟨List.mem_cons_of_mem _ hmem, hnl⟩
          · right
            refine ⟨c', run', c :: pre', post', ?_, hty, hall, hbe⟩
            rw [hdec]
            simp

theorem glFuel_keeps : ∀ (fuel : Nat) (l : List Chunk), l.length ≤ fuel →
    ∀ x ∈ l, isListItemType x.type = false → x ∈ glFuel fuel l := by
  intro fuel
  induction fuel with
  | zero =>
    intro l hl x hx _
    have : l = [] := List.length_eq_zero.mp (Nat.le_zero.mp hl)
    subst this
    cases hx
  | succ fuel ih =>
    intro l hl x hx hnl
    cases l with
    | nil => cases hx
    | cons c rest =>
      have hrest : rest.length ≤ fuel := by simp at hl; omega
      by_cases hc : isListItemType c.type = true
      · simp only [glFuel]
        rw [if_pos hc]
        have hxrest : x ∈ rest := by
          rcases List.mem_cons.mp hx with rfl | h
          · rw [hnl] at hc; cases hc
          · exact h
        have hxnot : x ∉ rest.takeWhile (fun y => y.type == c.type) := by
          intro hmem
          have hbeq := List.mem_takeWhile_imp hmem
          have hxt : x.type = c.type := eq_of_beq hbeq
          rw [hxt] at hnl
          rw [hnl] at hc
          cases hc
        have hxdw : x ∈ rest.dropWhile (fun y => y.type == c.type) := by
          have hx2 : x ∈ rest.takeWhile (fun y => y.type == c.type) ++
              rest.dropWhile (fun y => y.type == c.type) := by
            rw [List.takeWhile_append_dropWhile]
            exact hxrest
          rcases List.mem_append.mp hx2 with h | h
          · exact absurd h hxnot
          · exact h
        exact List.mem_cons_of_mem _
          (ih _ (le_trans (List.dropWhile_sublist _).length_le hrest) x hxdw hnl)
      · simp only [glFuel]
        rw [if_neg hc]
        rcases List.mem_cons.mp hx with rfl | h
        · exact List.mem_cons_self _ _
        · exact List.mem_cons_of_mem _ (ih rest hrest x h hnl)

/-- C6: every chunk produced by the list coalescer is either a non-list
input chunk passed through unchanged, or the block of a contiguous run of
same-type list items; a block's `text` is the newline-join of its `items`
(the run's texts in order), its `chunk_id`, `page_start`, `font_size` and
`bbox` come from the run's first member and its `page_end` from the run's
last; and every non-list input chunk is passed through. -/
theorem c6_group_lists_spec (chunks : List Chunk) :
    (∀ b ∈ group_lists chunks,
      (b ∈ chunks ∧ isListItemType b.type = false) ∨
      (∃ c run pre post, chunks = pre ++ (c :: run) ++ post ∧
        isListItemType c.type = true ∧ (∀ x ∈ run, x.type = c.type) ∧
        b = mkListBlock c run ∧
        b.text = joinWith "\n" b.items ∧
        b.items = (c :: run).map Chunk.text ∧
        b.chunk_id = c.chunk_id ∧ b.page_start = c.page_start ∧
        b.font_size = c.font_size ∧ b.bbox = c.bbox ∧
        b.page_end = (run.getLastD c).page_end ∧
        b.type = (if c.type == "ordered_list_item" then "ordered_list_block"
          else "list_block"))) ∧
    (∀ x ∈ chunks, isListItemType x.type = false → x ∈ group_lists chunks) := by
  constructor
  · intro b hb
    rcases glFuel_mem chunks.length chunks le_rfl b hb with h |
      ⟨c, run, pre, post, hdec, hty, hall, hbe⟩
    · exact Or.inl h
    · right
      subst hbe
      exact ⟨c, run, pre, post, hdec, hty, hall, rfl, rfl, rfl, rfl, rfl, rfl, rfl, rfl, rfl⟩
  · intro x hx hnl
    exact glFuel_keeps chunks.length chunks le_rfl x hx hnl

/-- An unordered list-item chunk (first of a run). -/
def chA : Chunk := ⟨"ch0000", 1, 1, "list_item", 11, "• a", none, none, []⟩

/-- An unordered list-item chunk (second of a run). -/
def chB : Chunk := ⟨"ch0001", 1, 2, "list_item", 11, "• b", none, none, []⟩

/-- A paragraph chunk following the run. -/
def chP : Chunk := ⟨"ch0002", 2, 2, "paragraph", 11, "text", none, none, []⟩

/-- C6 witness: the pass-through half applied to the paragraph chunk of a
concrete sequence. -/
theorem c6_group_lists_spec_witness :
    (chP ∈ [chA, chB, chP] ∧ isListItemType chP.type = false) ∧
    chP ∈ group_lists [chA, chB, chP] :=
  ⟨⟨by decide, by decide⟩,
    (c6_group_lists_spec [chA, chB, chP]).2 chP (by decide) (by decide)⟩

/-! ### Claim C8: `hyperlink_target` of the pipeline output -/

/-- Is a chunk type one of the two block types produced by the list
coalescer? -/
def isListBlockType (t : String) : Bool :=
  t == "list_block" || t == "ordered_list_block"

theorem midChunks_mem : ∀ (gs : List RawChunk) (idx : Nat), ∀ ch ∈ midChunks idx gs,
    ∃ i g, g ∈ gs ∧ ch = mkChunkRecord i g := by
  intro gs
  induction gs with
  | nil => intro idx ch hch; cases hch
  | cons g rest ih =>
    intro idx ch hch
    simp only [midChunks] at hch
    rcases List.mem_cons.mp hch with rfl | h
    · exact ⟨idx, g, List.mem_cons_self _ _, rfl⟩
    · obtain ⟨i, g', hg', he⟩ := ih (idx + 1) ch h
      exact ⟨i, g', List.mem_cons_of_mem _ hg', he⟩

theorem classify_chunk_mem (ch : RawChunk) :
    classify_chunk ch = "ordered_list_item" ∨ classify_chunk ch = "list_item" ∨
    classify_chunk ch = "section_h1" ∨ classify_chunk ch = "section_h2" ∨
    classify_chunk ch = "section_h3" ∨ classify_chunk ch = "reference" ∨
    classify_chunk ch = "caption" ∨ classify_chunk ch = "paragraph" := by
  unfold classify_chunk
  dsimp only
  split_ifs <;> simp

theorem classify_not_block (ch : RawChunk) :
    isListBlockType (classify_chunk ch) = false := by
  rcases classify_chunk_mem ch with h | h | h | h | h | h | h | h <;> rw [h] <;> decide

/-- C8 (amended): in the output of `process_structure`, a chunk produced
as a list block always carries `hyperlink_target = none`, while every
other chunk carries the first truthy `hyperlink_target` among the member
spans of its span group (`none` when no member has one). -/
theorem c8_hyperlink_target_spec (spans : List Span) :
    ∀ b ∈ process_structure spans,
      (isListBlockType b.type = true → b.hyperlink_target = none) ∧
      (isListBlockType b.type = false →
        ∃ g ∈ group_into_chunks spans, b.hyperlink_target = firstTruthy g.lines) := by
  intro b hb
  have hb' : b ∈ glFuel (midChunks 0 (group_into_chunks spans)).length
      (midChunks 0 (group_into_chunks spans)) := hb
  rcases glFuel_mem _ _ le_rfl b hb' with ⟨hmid, _⟩ |
    ⟨c, run, pre, post, _, _, _, hbe⟩
  · obtain ⟨i, g, hg, rfl⟩ := midChunks_mem _ 0 b hmid
    constructor
    · intro hblock
      have hnb := classify_not_block g
      have hty : (mkChunkRecord i g).type = classify_chunk g := rfl
      rw [hty, hnb] at hblock
      cases hblock
    · intro _
      exact ⟨g, hg, rfl⟩
  · subst hbe
    constructor
    · intro _
      rfl
    · intro hnb
      exfalso
      have hbt : (mkListBlock c run).type =
          (if c.type == "ordered_list_item" then "ordered_list_block" else "list_block") := rfl
      rw [hbt] at hnb
      by_cases h : (c.type == "ordered_list_item") = true
      · rw [if_pos h] at hnb
        exact absurd hnb (by decide)
      · rw [if_neg h] at hnb
        exact absurd hnb (by decide)

/-- A list-item span carrying a hyperlink target. -/
def linkSpan : Span :=
  { page := 1, text := "• пункт", bbox := none, font := "F", size := 11, color := 0,
    bold := false, italic := false, hyperlink_target := some (.uri "http://x") }

/-- C8 counterexample: a list-item span with a (truthy) hyperlink target
is coalesced into a list block whose `hyperlink_target` is `none`, while
the first non-null target among its member spans is `http://x`; so the
claim that every output chunk, list blocks included, carries the first
non-null member target is false. -/
theorem c8_counterexample :
    (process_structure [linkSpan]).map (fun c => (c.type, c.hyperlink_target)) =
      [("list_block", none)] ∧
    firstTruthy [linkSpan] = some (.uri "http://x") :=
  ⟨by decide, by decide⟩

/-- A plain text span carrying an internal page link. -/
def plainSpan : Span :=
  { page := 1, text := "просто текст", bbox := none, font := "F", size := 11, color := 0,
    bold := false, italic := false, hyperlink_target := some (.page 3) }

/-- The chunk record built from [[plainSpan]] alone. -/
def plainChunk : Chunk := mkChunkRecord 0 ⟨[plainSpan], 1, 1⟩

/-- C8 witness: the amended theorem applied to the non-block chunk of a
concrete one-span input. -/
theorem c8_hyperlink_target_spec_witness :
    (plainChunk ∈ process_structure [plainSpan]) ∧
    ((isListBlockType plainChunk.type = true → plainChunk.hyperlink_target = none) ∧
     (isListBlockType plainChunk.type = false →
       ∃ g ∈ group_into_chunks [plainSpan], plainChunk.hyperlink_target = firstTruthy g.lines)) :=
  ⟨by decide, c8_hyperlink_target_spec [plainSpan] plainChunk (by decide)⟩

/-! ### Claim C2: heading coalescing -/

theorem mergeRun_type : ∀ (run : List Chunk) (c : Chunk), (mergeRun c run).type = c.type := by
  intro run
  induction run with
  | nil => intro c; rfl
  | cons x t ih => intro c; exact ih _

theorem mergeRun_chunk_id : ∀ (run : List Chunk) (c : Chunk),
    (mergeRun c run).chunk_id = c.chunk_id := by
  intro run
  induction run with
  | nil => intro c; rfl
  | cons x t ih => intro c; exact ih _

theorem mergeRun_page_start : ∀ (run : List Chunk) (c : Chunk),
    (mergeRun c run).page_start = c.page_start := by
  intro run
  induction run with
  | nil => intro c; rfl
  | cons x t ih => intro c; exact ih _

theorem mergeRun_text : ∀ (run : List Chunk) (c : Chunk),
    (mergeRun c run).text = joinWith " " ((c :: run).map Chunk.text) := by
  intro run
  induction run with
  | nil => intro c; rfl
  | cons x t ih =>
    intro c
    exact ih { c with text := c.text ++ " " ++ x.text, page_end := x.page_end }

theorem mergeRun_page_end : ∀ (run : List Chunk) (c : Chunk),
    (mergeRun c run).page_end = (run.getLastD c).page_end := by
  intro run
  induction run with
  | nil => intro c; rfl
  | cons x t ih =>
    intro c
    have h := ih { c with text := c.text ++ " " ++ x.text, page_end := x.page_end }
    rw [List.getLastD_cons]
    cases t with
    | nil => exact h
    | cons y u => exact h

theorem mhFuel_head_type : ∀ (fuel : Nat) (l : List Chunk),
    (mhFuel fuel l).head?.map Chunk.type = l.head?.map Chunk.type := by
  intro fuel
  cases fuel with
  | zero => intro l; cases l <;> rfl
  | succ fuel =>
    intro l
    cases l with
    | nil => rfl
    | cons c rest =>
      by_cases hc : isSectionType c.type = true
      · simp only [mhFuel]
        rw [if_pos hc]
        simp [mergeRun_type]
      · simp only [mhFuel]
        rw [if_neg hc]
        rfl

theorem mhFuel_chain : ∀ (fuel : Nat) (l : List Chunk), l.length ≤ fuel →
    List.Chain' (fun a b => isSectionType a.type = true → a.type ≠ b.type)
      (mhFuel fuel l) := by
  intro fuel
  induction fuel with
  | zero =>
    intro l hl
    have : l = [] := List.length_eq_zero.mp (Nat.le_zero.mp hl)
    subst this
    simp [mhFuel]
  | succ fuel ih =>
    intro l hl
    cases l with
    | nil => simp [mhFuel]
    | cons c rest =>
      have hrest : rest.length ≤ fuel := by simp at hl; omega
      by_cases hc : isSectionType c.type = true
      · simp only [mhFuel]
        rw [if_pos hc]
        rw [List.chain'_cons']
        have hdwlen : (rest.dropWhile (fun x => x.type == c.type)).length ≤ fuel :=
          le_trans (List.dropWhile_sublist _).length_le hrest
        refine ⟨?_, ih _ hdwlen⟩
        intro y hy _ heq
        have htyp : (mergeRun c (rest.takeWhile (fun x => x.type == c.type))).type = c.type :=
          mergeRun_type _ _
        have hhead := mhFuel_head_type fuel (rest.dropWhile (fun x => x.type == c.type))
        cases hdw : rest.dropWhile (fun x => x.type == c.type) with
        | nil =>
          rw [hdw] at hy
          simp [mhFuel] at hy
        | cons z zs =>
          rw [hdw] at hhead hy
          have hz : (z.type == c.type) = false := dropWhile_head_false _ rest z zs hdw
          have hys : (mhFuel fuel (z :: zs)).head? = some y := hy
          rw [hys] at hhead
          have hyz : y.type = z.type := by
            simpa using hhead
          rw [htyp, hyz] at heq
          rw [← heq] at hz
          simp at hz
      · simp only [mhFuel]
        rw [if_neg hc]
        rw [List.chain'_cons']
        refine ⟨?_, ih rest hrest⟩
        intro y _ hsec
        exact absurd hsec hc

theorem mhFuel_mem : ∀ (fuel : Nat) (l : List Chunk), l.length ≤ fuel → ∀ b ∈ mhFuel fuel l,
    (b ∈ l ∧ isSectionType b.type = false) ∨
    (∃ c run pre post, l = pre ++ (c :: run) ++ post ∧ isSectionType c.type = true ∧
      (∀ x ∈ run, x.type = c.type) ∧ b = mergeRun c run) := by
  intro fuel
  induction fuel with
  | zero =>
    intro l hl b hb
    have : l = [] := List.length_eq_zero.mp (Nat.le_zero.mp hl)
    subst this
    simp [mhFuel] at hb
  | succ fuel ih =>
    intro l hl b hb
    cases l with
    | nil => simp [mhFuel] at hb
    | cons c rest =>
      have hrest : rest.length ≤ fuel := by simp at hl; omega
      by_cases hc : isSectionType c.type = true
      · simp only [mhFuel] at hb
        rw [if_pos hc] at hb
        rcases List.mem_cons.mp hb with hb | hb
        · right
          refine ⟨c, rest.takeWhile (fun x => x.type == c.type), [],
            rest.dropWhile (fun x => x.type == c.type), ?_, hc, ?_, hb⟩
          · simp [List.takeWhile_append_dropWhile]
          · intro x hx
            have hbeq := List.mem_takeWhile_imp hx
            exact eq_of_beq hbeq
        · have hdw : (rest.dropWhile (fun x => x.type == c.type)).length ≤ fuel :=
            le_trans (List.dropWhile_sublist _).length_le hrest
          rcases ih _ hdw b hb with ⟨hmem, hnl⟩ | ⟨c', run', pre', post', hdec, hty, hall, hbe⟩
          · exact Or.inl ⟨List.mem_cons_of_mem _ (mem_of_mem_dropWhileX hmem), hnl⟩
          · right
            refine ⟨c', run', c :: rest.takeWhile (fun x => x.type == c.type) ++ pre', post',
              ?_, hty, hall, hbe⟩
            have hsplit : rest = rest.takeWhile (fun x => x.type == c.type) ++
                rest.dropWhile (fun x => x.type == c.type) :=
              (List.takeWhile_append_dropWhile ..).symm
            conv_lhs => rw [hsplit, hdec]
            simp
      · simp only [mhFuel] at hb
        rw [if_neg hc] at hb
        rcases List.mem_cons.mp hb with rfl | hb
        · exact Or.inl ⟨List.mem_cons_self _ _, Bool.eq_false_iff.mpr hc⟩
        · rcases ih rest hrest b hb with ⟨hmem, hnl⟩ | ⟨c', run', pre', post', hdec, hty, hall, hbe⟩
          · exact Or.inl ⟨List.mem_cons_of_mem _ hmem, hnl⟩
          · right
            refine ⟨c', run', c :: pre', post', ?_, hty, hall, hbe⟩
            rw [hdec]
            simp

/-- A bold size-16 heading span in font `A`. -/
def h1SpanA : Span :=
  { page := 1, text := "Заголовок", bbox := none, font := "A", size := 16, color := 0,
    bold := true, italic := false, hyperlink_target := none }

/-- A second bold size-16 heading span, in a different font `B` so the
span grouper splits it from [[h1SpanA]]. -/
def h1SpanB : Span :=
  { page := 1, text := "Продолжение", bbox := none, font := "B", size := 16, color := 0,
    bold := true, italic := false, hyperlink_target := none }

/-- C2 counterexample: `process_structure` emits two adjacent `section_h1`
chunks — heading coalescing is never applied to the pipeline's output,
because `process_structure` only calls `group_lists` and
`merge_adjacent_headings` is never invoked anywhere in the repository. -/
theorem c2_counterexample :
    (process_structure [h1SpanA, h1SpanB]).map Chunk.type =
      ["section_h1", "section_h1"] := by decide

/-- C2 (amended): the heading coalescer `merge_adjacent_headings` itself
does satisfy the claimed property — in its output no two adjacent chunks
share a heading type, and each output chunk is either a non-heading input
chunk or the merge of a maximal run of same-type heading chunks, with the
texts space-joined in order and `page_end` taken from the run's last
member — but `process_structure` never applies it, so the claim fails for
the persisted chunk sequence (see the counterexample). -/
theorem c2_merge_adjacent_headings_spec (chunks : List Chunk) :
    List.Chain' (fun a b => isSectionType a.type = true → a.type ≠ b.type)
      (merge_adjacent_headings chunks) ∧
    (∀ b ∈ merge_adjacent_headings chunks,
      (b ∈ chunks ∧ isSectionType b.type = false) ∨
      (∃ c run pre post, chunks = pre ++ (c :: run) ++ post ∧
        isSectionType c.type = true ∧ (∀ x ∈ run, x.type = c.type) ∧
        b = mergeRun c run ∧ b.type = c.type ∧
        b.text = joinWith " " ((c :: run).map Chunk.text) ∧
        b.page_end = (run.getLastD c).page_end ∧
        b.page_start = c.page_start ∧ b.chunk_id = c.chunk_id)) := by
  constructor
  · exact mhFuel_chain chunks.length chunks le_rfl
  · intro b hb
    rcases mhFuel_mem chunks.length chunks le_rfl b hb with h |
      ⟨c, run, pre, post, hdec, hty, hall, hbe⟩
    · exact Or.inl h
    · right
      refine ⟨c, run, pre, post, hdec, hty, hall, hbe, ?_, ?_, ?_, ?_, ?_⟩
      · rw [hbe]; exact mergeRun_type run c
      · rw [hbe]; exact mergeRun_text run c
      · rw [hbe]; exact mergeRun_page_end run c
      · rw [hbe]; exact mergeRun_page_start run c
      · rw [hbe]; exact mergeRun_chunk_id run c

/-- A `section_h1` chunk (first line of a wrapped heading). -/
def cH1a : Chunk := ⟨"ch0000", 1, 1, "section_h1", 16, "Глава", none, none, []⟩

/-- A `section_h1` chunk (second line of a wrapped heading). -/
def cH1b : Chunk := ⟨"ch0001", 2, 2, "section_h1", 16, "первая", none, none, []⟩

/-- C2 witness: the amended theorem applied to the merged block of a
concrete two-heading run. -/
theorem c2_merge_adjacent_headings_spec_witness :
    (mergeRun cH1a [cH1b] ∈ merge_adjacent_headings [cH1a, cH1b]) ∧
    ((mergeRun cH1a [cH1b] ∈ [cH1a, cH1b] ∧
        isSectionType (mergeRun cH1a [cH1b]).type = false) ∨
      (∃ c run pre post, [cH1a, cH1b] = pre ++ (c :: run) ++ post ∧
        isSectionType c.type = true ∧ (∀ x ∈ run, x.type = c.type) ∧
        mergeRun cH1a [cH1b] = mergeRun c run ∧ (mergeRun cH1a [cH1b]).type = c.type ∧
        (mergeRun cH1a [cH1b]).text = joinWith " " ((c :: run).map Chunk.text) ∧
        (mergeRun cH1a [cH1b]).page_end = (run.getLastD c).page_end ∧
        (mergeRun cH1a [cH1b]).page_start = c.page_start ∧
        (mergeRun cH1a [cH1b]).chunk_id = c.chunk_id)) :=
  ⟨by decide, (c2_merge_adjacent_headings_spec [cH1a, cH1b]).2 (mergeRun cH1a [cH1b]) (by decide)⟩

/-! ### Claim C3: the ordered-list lead pattern -/

theorem dropWhile_all_append {α : Type} (p : α → Bool) :
    ∀ (l₁ l₂ : List α), (∀ x ∈ l₁, p x = true) →
      (l₁ ++ l₂).dropWhile p = l₂.dropWhile p := by
  intro l₁
  induction l₁ with
  | nil => intro l₂ _; rfl
  | cons a t ih =>
    intro l₂ hall
    rw [List.cons_append, List.dropWhile_cons_of_pos (hall a (List.mem_cons_self _ _))]
    exact ih l₂ (fun x hx => hall x (List.mem_cons_of_mem _ hx))

theorem ordMatchL_iff (l : List Char) :
    ordMatchL l = true ↔
      ((∃ ds p w rest, l = ds ++ p :: w :: rest ∧ ds ≠ [] ∧ (∀ d ∈ ds, d.isDigit = true) ∧
        (p = '.' ∨ p = ')') ∧ reSpace w = true) ∨
      (∃ c w rest, l = c :: ')' :: w :: rest ∧ c.isDigit = false ∧ ordLetter c = true ∧
        reSpace w = true)) := by
  constructor
  · intro h
    cases l with
    | nil => simp [ordMatchL] at h
    | cons c rest =>
      by_cases hd : c.isDigit = true
      · left
        rw [ordMatchL, if_pos hd] at h
        cases hdw : (c :: rest).dropWhile Char.isDigit with
        | nil => rw [hdw] at h; simp [afterDigits] at h
        | cons p t =>
          cases t with
          | nil => rw [hdw] at h; simp [afterDigits] at h
          | cons w t' =>
            rw [hdw] at h
            simp only [afterDigits, Bool.and_eq_true, Bool.or_eq_true, beq_iff_eq] at h
            refine ⟨(c :: rest).takeWhile Char.isDigit, p, w, t', ?_, ?_, ?_, h.1, h.2⟩
            · rw [← hdw, List.takeWhile_append_dropWhile]
            · rw [List.takeWhile_cons_of_pos hd]
              exact List.cons_ne_nil _ _
            · intro d hdm
              exact List.mem_takeWhile_imp hdm
      · right
        rw [ordMatchL, if_neg hd] at h
        cases rest with
        | nil => simp [letterTail] at h
        | cons b t =>
          cases t with
          | nil => simp [letterTail] at h
          | cons w t' =>
            simp only [letterTail, Bool.and_eq_true, beq_iff_eq] at h
            obtain ⟨⟨h1, h2⟩, h3⟩ := h
            subst h2
            exact ⟨c, w, t', rfl, Bool.eq_false_iff.mpr hd, h1, h3⟩
  · intro h
    rcases h with ⟨ds, p, w, rest, heq, hne, hdig, hp, hw⟩ | ⟨c, w, rest, heq, hnd, hlet, hw⟩
    · cases ds with
      | nil => exact absurd rfl hne
      | cons d ds' =>
        have hd : d.isDigit = true := hdig d (List.mem_cons_self _ _)
        rw [heq]
        simp only [List.cons_append]
        rw [ordMatchL, if_pos hd]
        have hpnd : p.isDigit = false := by
          rcases hp with rfl | rfl <;> decide
        have hdrop : (d :: (ds' ++ p :: w :: rest)).dropWhile Char.isDigit =
            p :: w :: rest := by
          rw [List.dropWhile_cons_of_pos hd]
          rw [dropWhile_all_append Char.isDigit ds' (p :: w :: rest)
            (fun x hx => hdig x (List.mem_cons_of_mem _ hx))]
          rw [List.dropWhile_cons_of_neg (by simp [hpnd])]
        rw [hdrop]
        rcases hp with rfl | rfl <;> simp [afterDigits, hw]
    · rw [heq]
      rw [ordMatchL, if_neg (by simp [hnd])]
      simp [letterTail, hlet, hw]

/-- The letter alternative as the SPEC writes the pattern
(`[a-zA-Zа-яА-Я]`): it additionally accepts uppercase Cyrillic letters,
which the code's character class `[a-zа-яA-Z]` does not. -/
def specOrdLetter (c : Char) : Bool :=
  ordLetter c || decide ('А' ≤ c ∧ c ≤ 'Я')

/-- After a single letter `c`, as the spec reads: `)` then `\s`. -/
def specLetterTail (c : Char) : List Char → Bool
  | b :: w :: _ => specOrdLetter c && b == ')' && reSpace w
  | _ => false

/-- The spec's version of the ordered-list lead pattern on characters. -/
def specOrdMatchL : List Char → Bool
  | [] => false
  | c :: rest =>
    if c.isDigit then afterDigits ((c :: rest).dropWhile Char.isDigit)
    else specLetterTail c rest

/-- The spec's version of the ordered-list lead pattern. -/
def specOrdMatch (s : String) : Bool := specOrdMatchL s.data

/-- A chunk text starting with an uppercase-Cyrillic list lead `Б)`. -/
def cyrSpan : Span :=
  { page := 1, text := "Б) пункт", bbox := none, font := "F", size := 11, color := 0,
    bold := false, italic := false, hyperlink_target := none }

/-- C3 counterexample: the text `Б) пункт` matches the pattern exactly as
the claim states it (uppercase Cyrillic accepted), yet `classify_chunk`
returns `caption`, not `ordered_list_item`: the code's regex
`^(\d+[.)]|[a-zа-яA-Z]\))\s` omits uppercase Cyrillic letters. -/
theorem c3_counterexample :
    specOrdMatch (pyLStrip (chunkFullText [cyrSpan])) = true ∧
    classify_chunk ⟨[cyrSpan], 1, 1⟩ = "caption" ∧
    classify_chunk ⟨[cyrSpan], 1, 1⟩ ≠ "ordered_list_item" :=
  ⟨by decide, by decide, by decide⟩

/-- C3 (amended): the code's ordered-list lead pattern is
`^(\d+[.)]|[a-zа-яA-Z]\))\s` — a digit sequence followed by `.` or `)`,
or a single Latin letter of either case or a single lowercase Cyrillic
letter followed by `)`, then a whitespace character — and whenever the
left-trimmed chunk text matches it, `classify_chunk` returns
`ordered_list_item`, taking priority over every other classification
rule. -/
theorem c3_ordered_rule_spec :
    (∀ s : String, ordMatch s = true ↔
      ((∃ ds p w rest, s.data = ds ++ p :: w :: rest ∧ ds ≠ [] ∧
        (∀ d ∈ ds, d.isDigit = true) ∧ (p = '.' ∨ p = ')') ∧ reSpace w = true) ∨
      (∃ c w rest, s.data = c :: ')' :: w :: rest ∧ c.isDigit = false ∧
        ordLetter c = true ∧ reSpace w = true))) ∧
    (∀ chunk : RawChunk, ordMatch (pyLStrip (chunkFullText chunk.lines)) = true →
      classify_chunk chunk = "ordered_list_item") := by
  constructor
  · intro s
    exact ordMatchL_iff s.data
  · intro ch h
    unfold classify_chunk
    dsimp only
    rw [if_pos h]

/-- An ordered-list chunk text (`1. Пункт`). -/
def ordSpan : Span :=
  { page := 1, text := "1. Пункт", bbox := none, font := "F", size := 11, color := 0,
    bold := false, italic := false, hyperlink_target := none }

/-- C3 witness: the amended classification rule applied to a concrete
ordered-list chunk. -/
theorem c3_ordered_rule_spec_witness :
    (ordMatch (pyLStrip (chunkFullText [ordSpan])) = true) ∧
    classify_chunk ⟨[ordSpan], 1, 1⟩ = "ordered_list_item" :=
  ⟨by decide, c3_ordered_rule_spec.2 ⟨[ordSpan], 1, 1⟩ (by decide)⟩

/-! ### Claim C4: section level inference -/

theorem mem_insertDesc (x y : ℚ) : ∀ (l : List ℚ), y ∈ insertDesc x l ↔ y = x ∨ y ∈ l := by
  intro l
  induction l with
  | nil => simp [insertDesc]
  | cons a t ih =>
    simp only [insertDesc]
    by_cases hxa : x = a
    · rw [if_pos hxa]
      subst hxa
      simp only [List.mem_cons]
      tauto
    · rw [if_neg hxa]
      by_cases hlt : a < x
      · rw [if_pos hlt]
        simp only [List.mem_cons]
      · rw [if_neg hlt]
        simp only [List.mem_cons, ih]
        tauto

theorem sorted_insertDesc (x : ℚ) : ∀ (l : List ℚ), List.Pairwise (fun a b => b < a) l →
    List.Pairwise (fun a b => b < a) (insertDesc x l) := by
  intro l
  induction l with
  | nil => intro _; simp [insertDesc]
  | cons a t ih =>
    intro hp
    rw [List.pairwise_cons] at hp
    obtain ⟨ha, ht⟩ := hp
    simp only [insertDesc]
    by_cases hxa : x = a
    · rw [if_pos hxa]
      exact List.pairwise_cons.mpr ⟨ha, ht⟩
    · by_cases hlt : a < x
      · rw [if_neg hxa, if_pos hlt]
        refine List.pairwise_cons.mpr ⟨?_, List.pairwise_cons.mpr ⟨ha, ht⟩⟩
        intro b hb
        rcases List.mem_cons.mp hb with rfl | hb
        · exact hlt
        · exact lt_trans (ha b hb) hlt
      · rw [if_neg hxa, if_neg hlt]
        have hxlt : x < a := lt_of_le_of_ne (not_lt.mp hlt) hxa
        refine List.pairwise_cons.mpr ⟨?_, ih ht⟩
        intro b hb
        rcases (mem_insertDesc x b t).mp hb with rfl | hb
        · exact hxlt
        · exact ha b hb

theorem sortDescDedup_mem (l : List ℚ) (y : ℚ) : y ∈ sortDescDedup l ↔ y ∈ l := by
  unfold sortDescDedup
  induction l with
  | nil => simp
  | cons a t ih =>
    simp only [List.foldr_cons]
    rw [mem_insertDesc]
    simp [List.mem_cons, ih]

theorem sortDescDedup_sorted (l : List ℚ) :
    List.Pairwise (fun a b => b < a) (sortDescDedup l) := by
  unfold sortDescDedup
  induction l with
  | nil => simp
  | cons a t ih => exact sorted_insertDesc a _ ih

theorem mem_candidateSizes (rows : List CRow) (y : ℚ) :
    y ∈ candidateSizes rows ↔
      ((∃ r ∈ rows, r.type = "paragraph" ∧ r.font_size = y) ∧ 12 < y) := by
  unfold candidateSizes paraSizes
  rw [List.mem_filter, sortDescDedup_mem, List.mem_map]
  constructor
  · rintro ⟨⟨r, hr, rfl⟩, h12⟩
    rw [List.mem_filter] at hr
    exact ⟨⟨r, hr.1, eq_of_beq hr.2, rfl⟩, of_decide_eq_true h12⟩
  · rintro ⟨⟨r, hr, hp, rfl⟩, h12⟩
    refine ⟨⟨r, List.mem_filter.mpr ⟨hr, ?_⟩, rfl⟩, decide_eq_true h12⟩
    simp [hp]

theorem candidateSizes_sorted (rows : List CRow) :
    List.Pairwise (fun a b => b < a) (candidateSizes rows) :=
  List.Pairwise.filter _ (sortDescDedup_sorted _)

/-- C4: `detect_section_levels` raises its error exactly when no
`paragraph`-typed row has `font_size > 12`; on success it returns the at
most two largest distinct `paragraph` font sizes above 12, the largest
mapped to level 1 and the second largest to level 2. -/
theorem c4_detect_section_levels_spec (rows : List CRow) :
    ((∃ e, detect_section_levels rows = .error e) ↔
      (∀ r ∈ rows, r.type = "paragraph" → r.font_size ≤ 12)) ∧
    (∀ m, detect_section_levels rows = .ok m →
      ((∃ s1, m = [(s1, 1)] ∧
          (∃ r ∈ rows, r.type = "paragraph" ∧ r.font_size = s1) ∧ 12 < s1 ∧
          (∀ r ∈ rows, r.type = "paragraph" → 12 < r.font_size → r.font_size = s1)) ∨
       (∃ s1 s2, m = [(s1, 1), (s2, 2)] ∧ s2 < s1 ∧
          (∃ r ∈ rows, r.type = "paragraph" ∧ r.font_size = s1) ∧
          (∃ r ∈ rows, r.type = "paragraph" ∧ r.font_size = s2) ∧
          12 < s2 ∧
          (∀ r ∈ rows, r.type = "paragraph" → 12 < r.font_size → r.font_size ≤ s1) ∧
          (∀ r ∈ rows, r.type = "paragraph" → 12 < r.font_size → r.font_size ≠ s1 →
            r.font_size ≤ s2)))) := by
  constructor
  · constructor
    · rintro ⟨e, he⟩ r hr hp
      by_contra hgt
      rw [not_le] at hgt
      have hy : r.font_size ∈ candidateSizes rows :=
        (mem_candidateSizes rows r.font_size).mpr ⟨⟨r, hr, hp, rfl⟩, hgt⟩
      unfold detect_section_levels at he
      cases hc : (candidateSizes rows).take 2 with
      | nil =>
        rcases List.take_eq_nil_iff.mp hc with h2 | hnil
        · exact absurd h2 (by decide)
        · rw [hnil] at hy
          cases hy
      | cons s t =>
        rw [hc] at he
        cases he
    · intro hall
      have hnil : candidateSizes rows = [] := by
        cases hcs : candidateSizes rows with
        | nil => rfl
        | cons y t =>
          have hy : y ∈ candidateSizes rows := by
            rw [hcs]
            exact List.mem_cons_self _ _
          obtain ⟨⟨r, hr, hp, hf⟩, h12⟩ := (mem_candidateSizes rows y).mp hy
          have hle := hall r hr hp
          rw [hf] at hle
          exact absurd h12 (not_lt.mpr hle)
      refine ⟨"Не найдено ни одного font_size, подходящего для уровней секций.", ?_⟩
      unfold detect_section_levels
      rw [hnil]
      rfl
  · intro m hm
    unfold detect_section_levels at hm
    have hsorted := candidateSizes_sorted rows
    cases hc : (candidateSizes rows).take 2 with
    | nil =>
      rw [hc] at hm
      cases hm
    | cons s1 t =>
      rw [hc] at hm
      cases t with
      | nil =>
        left
        injection hm with hm'
        have hl : candidateSizes rows = [s1] := by
          cases hx : candidateSizes rows with
          | nil => rw [hx] at hc; simp at hc
          | cons x xs =>
            cases xs with
            | nil =>
              rw [hx] at hc
              simp at hc
              rw [hc]
            | cons y ys =>
              rw [hx] at hc
              simp at hc
        have hs1 : s1 ∈ candidateSizes rows := by
          rw [hl]
          exact List.mem_cons_self _ _
        obtain ⟨hex, h12⟩ := (mem_candidateSizes rows s1).mp hs1
        refine ⟨s1, hm'.symm, hex, h12, ?_⟩
        intro r hr hp hf
        have : r.font_size ∈ candidateSizes rows :=
          (mem_candidateSizes rows r.font_size).mpr ⟨⟨r, hr, hp, rfl⟩, hf⟩
        rw [hl] at this
        rcases List.mem_cons.mp this with h | h
        · exact h
        · cases h
      | cons s2 t2 =>
        have ht2 : t2 = [] := by
          have hlen := congrArg List.length hc
          simp [List.length_take] at hlen
          have : t2.length = 0 := by omega
          exact List.length_eq_zero.mp this
        subst ht2
        right
        injection hm with hm'
        obtain ⟨tl, htl⟩ : ∃ tl, candidateSizes rows = s1 :: s2 :: tl := by
          cases hx : candidateSizes rows with
          | nil => rw [hx] at hc; simp at hc
          | cons x xs =>
            cases xs with
            | nil =>
              rw [hx] at hc
              simp at hc
            | cons y ys =>
              rw [hx] at hc
              simp at hc
              exact ⟨ys, by rw [hc.1, hc.2]⟩
        rw [htl] at hsorted
        rw [List.pairwise_cons] at hsorted
        obtain ⟨hs1gt, hsorted2⟩ := hsorted
        rw [List.pairwise_cons] at hsorted2
        obtain ⟨hs2gt, -⟩ := hsorted2
        have hs1 : s1 ∈ candidateSizes rows := by
          rw [htl]; exact List.mem_cons_self _ _
        have hs2 : s2 ∈ candidateSizes rows := by
          rw [htl]; exact List.mem_cons_of_mem _ (List.mem_cons_self _ _)
        obtain ⟨hex1, h12a⟩ := (mem_candidateSizes rows s1).mp hs1
        obtain ⟨hex2, h12b⟩ := (mem_candidateSizes rows s2).mp hs2
        refine ⟨s1, s2, hm'.symm, hs1gt s2 (List.mem_cons_self _ _), hex1, hex2, h12b, ?_, ?_⟩
        · intro r hr hp hf
          have hmem : r.font_size ∈ candidateSizes rows :=
            (mem_candidateSizes rows r.font_size).mpr ⟨⟨r, hr, hp, rfl⟩, hf⟩
          rw [htl] at hmem
          rcases List.mem_cons.mp hmem with h | h
          · exact le_of_eq h
          · exact le_of_lt (hs1gt _ h)
        · intro r hr hp hf hne
          have hmem : r.font_size ∈ candidateSizes rows :=
            (mem_candidateSizes rows r.font_size).mpr ⟨⟨r, hr, hp, rfl⟩, hf⟩
          rw [htl] at hmem
          rcases List.mem_cons.mp hmem with h | h
          · exact absurd h hne
          · rcases List.mem_cons.mp h with h | h
            · exact le_of_eq h
            · exact le_of_lt (hs2gt _ h)

/-- A `chunks.csv` row with the given chunk id, type and font size (one
page, placeholder text). -/
def mkRow (cid : String) (ty : String) (fs : ℚ) : CRow :=
  { chunk_id := cid, page_start := 1, page_end := 1, type := ty, font_size := fs,
    text := "x", bbox := "" }

/-- Rows with paragraph sizes 16, 14 and 11: levels 1 and 2 come out as
16 and 14. -/
def levelRows : List CRow :=
  [mkRow "c1" "paragraph" 16, mkRow "c2" "paragraph" 14, mkRow "c3" "paragraph" 11]

/-- C4 witness: level detection on the concrete rows, via the success half
of the theorem. -/
theorem c4_detect_section_levels_spec_witness :
    (detect_section_levels levelRows = .ok [(16, 1), (14, 2)]) ∧
    ((∃ s1, [((16 : ℚ), 1), ((14 : ℚ), 2)] = [(s1, 1)] ∧
        (∃ r ∈ levelRows, r.type = "paragraph" ∧ r.font_size = s1) ∧ 12 < s1 ∧
        (∀ r ∈ levelRows, r.type = "paragraph" → 12 < r.font_size → r.font_size = s1)) ∨
     (∃ s1 s2, [((16 : ℚ), 1), ((14 : ℚ), 2)] = [(s1, 1), (s2, 2)] ∧ s2 < s1 ∧
        (∃ r ∈ levelRows, r.type = "paragraph" ∧ r.font_size = s1) ∧
        (∃ r ∈ levelRows, r.type = "paragraph" ∧ r.font_size = s2) ∧
        12 < s2 ∧
        (∀ r ∈ levelRows, r.type = "paragraph" → 12 < r.font_size → r.font_size ≤ s1) ∧
        (∀ r ∈ levelRows, r.type = "paragraph" → 12 < r.font_size → r.font_size ≠ s1 →
          r.font_size ≤ s2))) :=
  ⟨by decide, (c4_detect_section_levels_spec levelRows).2 [(16, 1), (14, 2)] (by decide)⟩

/-! ### Claim C5: the section hierarchy is a forest -/

/-- Edge well-formedness over the emitted section-node list: the source
was emitted strictly earlier (pushed earlier) than the target and has a
strictly smaller level. -/
def edgeOk (nodes : List SNode) (e : GEdge) : Prop :=
  ∃ i j, ∃ hi : i < nodes.length, ∃ hj : j < nodes.length, i < j ∧
    nodes[i].id = e.source ∧ nodes[j].id = e.target ∧ nodes[i].level < nodes[j].level

theorem edgeOk_append (nodes : List SNode) (x : SNode) (e : GEdge) (h : edgeOk nodes e) :
    edgeOk (nodes ++ [x]) e := by
  obtain ⟨i, j, hi, hj, hij, hs, ht, hl⟩ := h
  have hi' : i < (nodes ++ [x]).length := by
    simp only [List.length_append, List.length_singleton]
    omega
  have hj' : j < (nodes ++ [x]).length := by
    simp only [List.length_append, List.length_singleton]
    omega
  refine ⟨i, j, hi', hj', hij, ?_, ?_, ?_⟩
  · rw [List.getElem_append_left hi]
    exact hs
  · rw [List.getElem_append_left hj]
    exact ht
  · rw [List.getElem_append_left hi, List.getElem_append_left hj]
    exact hl

theorem hierGo_inv (m : List (ℚ × Nat)) :
    ∀ (rows : List CRow) (stack : List (String × Nat)) (nodes : List SNode) (edges : List GEdge),
      (rows.map (·.chunk_id)).Nodup →
      (∀ p ∈ stack, ∃ i, ∃ hi : i < nodes.length, nodes[i].id = p.1 ∧ nodes[i].level = p.2) →
      (∀ n ∈ nodes, ∀ r ∈ rows, n.id ≠ "section_" ++ r.chunk_id) →
      ((nodes.map (·.id)).Nodup) →
      (∀ e ∈ edges, e.relation = "HAS_SUBSECTION" → edgeOk nodes e) →
      (∀ e ∈ edges, e.relation = "HAS_SUBSECTION" → ∃ n ∈ nodes, n.id = e.target) →
      (∀ e ∈ edges, ∀ e' ∈ edges, e.relation = "HAS_SUBSECTION" → e'.relation = "HAS_SUBSECTION" →
        e.target = e'.target → e = e') →
      ((edges.filter (fun e => e.relation == "HAS_SUBSECTION")).Pairwise
        (fun e e' => e.target ≠ e'.target)) →
      (∀ e ∈ (hierGo m rows stack nodes edges).2, e.relation = "HAS_SUBSECTION" →
        edgeOk (hierGo m rows stack nodes edges).1 e) ∧
      (((hierGo m rows stack nodes edges).1.map (·.id)).Nodup) ∧
      (∀ e ∈ (hierGo m rows stack nodes edges).2, ∀ e' ∈ (hierGo m rows stack nodes edges).2,
        e.relation = "HAS_SUBSECTION" → e'.relation = "HAS_SUBSECTION" →
        e.target = e'.target → e = e') ∧
      (((hierGo m rows stack nodes edges).2.filter (fun e => e.relation == "HAS_SUBSECTION")).Pairwise
        (fun e e' => e.target ≠ e'.target)) := by
  intro rows
  induction rows with
  | nil =>
    intro stack nodes edges _ _ _ hnn hedges _ huniq hpair
    exact ⟨hedges, hnn, huniq, hpair⟩
  | cons r rest ih =>
    intro stack nodes edges hnodup hstack hfresh hnn hedges htargets huniq hpair
    have hnodup' : (rest.map (·.chunk_id)).Nodup := (List.nodup_cons.mp hnodup).2
    have hhead : r.chunk_id ∉ rest.map (·.chunk_id) := (List.nodup_cons.mp hnodup).1
    simp only [hierGo]
    by_cases hlv : getSectionLevel m r > 0
    · rw [if_pos hlv]
      -- shared facts about the fresh section node
      have hfreshsid : ∀ n ∈ nodes, n.id ≠ "section_" ++ r.chunk_id := by
        intro n hn
        exact hfresh n hn r (List.mem_cons_self _ _)
      have hfresh' : ∀ n ∈ nodes ++ [mkSNode ("section_" ++ r.chunk_id) (getSectionLevel m r) r],
          ∀ r' ∈ rest, n.id ≠ "section_" ++ r'.chunk_id := by
        intro n hn r' hr'
        rcases List.mem_append.mp hn with hn | hn
        · exact hfresh n hn r' (List.mem_cons_of_mem _ hr')
        · simp only [List.mem_singleton] at hn
          subst hn
          intro hcon
          have : r.chunk_id = r'.chunk_id := string_append_left_inj "section_" _ _ hcon
          exact hhead (this ▸ List.mem_map_of_mem (·.chunk_id) hr')
      have hnn' : (((nodes ++ [mkSNode ("section_" ++ r.chunk_id) (getSectionLevel m r) r]).map
          (·.id)).Nodup) := by
        rw [List.map_append]
        refine List.Nodup.append hnn (by simp) ?_
        intro a ha hb
        simp only [List.map_cons, List.map_nil, List.mem_singleton] at hb
        obtain ⟨n, hn, rfl⟩ := List.mem_map.mp ha
        exact hfreshsid n hn hb
      have hstack' : ∀ p ∈ ("section_" ++ r.chunk_id, getSectionLevel m r) ::
            stack.dropWhile (fun p => getSectionLevel m r ≤ p.2),
          ∃ i, ∃ hi : i < (nodes ++ [mkSNode ("section_" ++ r.chunk_id)
            (getSectionLevel m r) r]).length,
            (nodes ++ [mkSNode ("section_" ++ r.chunk_id) (getSectionLevel m r) r])[i].id = p.1 ∧
            (nodes ++ [mkSNode ("section_" ++ r.chunk_id) (getSectionLevel m r) r])[i].level =
              p.2 := by
        intro p hp
        rcases List.mem_cons.mp hp with rfl | hp
        · refine ⟨nodes.length, by simp, ?_, ?_⟩
          · rw [List.getElem_concat_length nodes _ _ rfl]
            rfl
          · rw [List.getElem_concat_length nodes _ _ rfl]
            rfl
        · obtain ⟨i, hi, h1, h2⟩ := hstack p (mem_of_mem_dropWhileX hp)
          refine ⟨i, by simp only [List.length_append, List.length_singleton]; omega, ?_, ?_⟩
          · rw [List.getElem_append_left hi]
            exact h1
          · rw [List.getElem_append_left hi]
            exact h2
      -- the new HAS_CHUNK edge never matters for HAS_SUBSECTION facts
      have hhcne : ("HAS_CHUNK" : String) ≠ "HAS_SUBSECTION" := by decide
      cases hdrop : stack.dropWhile (fun p => getSectionLevel m r ≤ p.2) with
      | nil =>
        rw [hdrop] at hstack'
        refine ih (("section_" ++ r.chunk_id, getSectionLevel m r) :: [])
          (nodes ++ [mkSNode ("section_" ++ r.chunk_id) (getSectionLevel m r) r])
          (edges ++ [] ++ [⟨"section_" ++ r.chunk_id, "chunk_" ++ r.chunk_id, "HAS_CHUNK"⟩])
          hnodup' hstack' hfresh' hnn' ?_ ?_ ?_ ?_
        · intro e he hrel
          rcases List.mem_append.mp he with he | he
          · rcases List.mem_append.mp he with he | he
            · exact edgeOk_append _ _ _ (hedges e he hrel)
            · cases he
          · simp only [List.mem_singleton] at he
            subst he
            exact absurd hrel hhcne
        · intro e he hrel
          rcases List.mem_append.mp he with he | he
          · rcases List.mem_append.mp he with he | he
            · obtain ⟨n, hn, hid⟩ := htargets e he hrel
              exact ⟨n, List.mem_append_left _ hn, hid⟩
            · cases he
          · simp only [List.mem_singleton] at he
            subst he
            exact absurd hrel hhcne
        · intro e he e' he' hrel hrel' htt
          rcases List.mem_append.mp he with he | he
          · rcases List.mem_append.mp he with he | he
            · rcases List.mem_append.mp he' with he' | he'
              · rcases List.mem_append.mp he' with he' | he'
                · exact huniq e he e' he' hrel hrel' htt
                · cases he'
              · simp only [List.mem_singleton] at he'
                subst he'
                exact absurd hrel' hhcne
            · cases he
          · simp only [List.mem_singleton] at he
            subst he
            exact absurd hrel hhcne
        · rw [List.append_nil, List.filter_append]
          have hf : (([⟨"section_" ++ r.chunk_id, "chunk_" ++ r.chunk_id, "HAS_CHUNK"⟩] :
              List GEdge).filter (fun e => e.relation == "HAS_SUBSECTION")) = [] := by simp
          rw [hf, List.append_nil]
          exact hpair
      | cons parent ptail =>
        rw [hdrop] at hstack'
        have hparent : parent ∈ stack := by
          have : parent ∈ stack.dropWhile (fun p => getSectionLevel m r ≤ p.2) := by
            rw [hdrop]
            exact List.mem_cons_self _ _
          exact mem_of_mem_dropWhileX this
        have hplt : parent.2 < getSectionLevel m r := by
          have hfalse := dropWhile_head_false
            (fun p => decide (getSectionLevel m r ≤ p.2)) stack parent ptail hdrop
          have := of_decide_eq_false hfalse
          omega
        obtain ⟨ip, hip, hipid, hiplevel⟩ := hstack parent hparent
        have hnewOk : edgeOk (nodes ++ [mkSNode ("section_" ++ r.chunk_id)
            (getSectionLevel m r) r])
            ⟨parent.1, "section_" ++ r.chunk_id, "HAS_SUBSECTION"⟩ := by
          refine ⟨ip, nodes.length, ?_, by simp, ?_, ?_, ?_, ?_⟩
          · simp only [List.length_append, List.length_singleton]
            omega
          · exact hip
          · rw [List.getElem_append_left hip]
            exact hipid
          · rw [List.getElem_concat_length nodes _ _ rfl]
            rfl
          · rw [List.getElem_append_left hip, List.getElem_concat_length nodes _ _ rfl]
            rw [hiplevel]
            exact hplt
        refine ih (("section_" ++ r.chunk_id, getSectionLevel m r) :: parent :: ptail)
          (nodes ++ [mkSNode ("section_" ++ r.chunk_id) (getSectionLevel m r) r])
          (edges ++ [⟨parent.1, "section_" ++ r.chunk_id, "HAS_SUBSECTION"⟩] ++
            [⟨"section_" ++ r.chunk_id, "chunk_" ++ r.chunk_id, "HAS_CHUNK"⟩])
          hnodup' hstack' hfresh' hnn' ?_ ?_ ?_ ?_
        · intro e he hrel
          rcases List.mem_append.mp he with he | he
          · rcases List.mem_append.mp he with he | he
            · exact edgeOk_append _ _ _ (hedges e he hrel)
            · simp only [List.mem_singleton] at he
              subst he
              exact hnewOk
          · simp only [List.mem_singleton] at he
            subst he
            exact absurd hrel hhcne
        · intro e he hrel
          rcases List.mem_append.mp he with he | he
          · rcases List.mem_append.mp he with he | he
            · obtain ⟨n, hn, hid⟩ := htargets e he hrel
              exact ⟨n, List.mem_append_left _ hn, hid⟩
            · simp only [List.mem_singleton] at he
              subst he
              exact ⟨mkSNode ("section_" ++ r.chunk_id) (getSectionLevel m r) r,
                List.mem_append_right _ (List.mem_singleton_self _), rfl⟩
          · simp only [List.mem_singleton] at he
            subst he
            exact absurd hrel hhcne
        · intro e he e' he' hrel hrel' htt
          have holdne : ∀ f ∈ edges, f.relation = "HAS_SUBSECTION" →
              f.target ≠ "section_" ++ r.chunk_id := by
            intro f hf hfr
            obtain ⟨n, hn, hid⟩ := htargets f hf hfr
            rw [← hid]
            exact hfreshsid n hn
          rcases List.mem_append.mp he with he | he
          · rcases List.mem_append.mp he with he | he
            · rcases List.mem_append.mp he' with he' | he'
              · rcases List.mem_append.mp he' with he' | he'
                · exact huniq e he e' he' hrel hrel' htt
                · simp only [List.mem_singleton] at he'
                  subst he'
                  exact absurd htt (holdne e he hrel)
              · simp only [List.mem_singleton] at he'
                subst he'
                exact absurd hrel' hhcne
            · simp only [List.mem_singleton] at he
              subst he
              rcases List.mem_append.mp he' with he' | he'
              · rcases List.mem_append.mp he' with he' | he'
                · exact absurd htt.symm (holdne e' he' hrel')
                · simp only [List.mem_singleton] at he'
                  subst he'
                  rfl
              · simp only [List.mem_singleton] at he'
                subst he'
                exact absurd hrel' hhcne
          · simp only [List.mem_singleton] at he
            subst he
            exact absurd hrel hhcne
        · have hf : (([⟨"section_" ++ r.chunk_id, "chunk_" ++ r.chunk_id, "HAS_CHUNK"⟩] :
              List GEdge).filter (fun e => e.relation == "HAS_SUBSECTION")) = [] := by simp
          have hg : (([⟨parent.1, "section_" ++ r.chunk_id, "HAS_SUBSECTION"⟩] :
              List GEdge).filter (fun e => e.relation == "HAS_SUBSECTION")) =
              [⟨parent.1, "section_" ++ r.chunk_id, "HAS_SUBSECTION"⟩] := by
            simp
          rw [List.filter_append, hf, List.append_nil, List.filter_append, hg]
          rw [List.pairwise_append]
          refine ⟨hpair, by simp, ?_⟩
          intro f hf' g hg'
          simp only [List.mem_singleton] at hg'
          subst hg'
          have hfrel : f.relation = "HAS_SUBSECTION" := by
            have := List.of_mem_filter hf'
            exact eq_of_beq this
          obtain ⟨n, hn, hid⟩ := htargets f (List.mem_of_mem_filter hf') hfrel
          intro hcon
          rw [← hid] at hcon
          exact hfreshsid n hn hcon
    · rw [if_neg hlv]
      have hfreshr : ∀ n ∈ nodes, ∀ r' ∈ rest, n.id ≠ "section_" ++ r'.chunk_id := by
        intro n hn r' hr'
        exact hfresh n hn r' (List.mem_cons_of_mem _ hr')
      cases hstk : stack with
      | nil =>
        refine ih [] nodes (edges ++ []) hnodup' ?_ hfreshr hnn ?_ ?_ ?_ ?_
        · intro p hp
          cases hp
        · intro e he hrel
          rw [List.append_nil] at he
          exact hedges e he hrel
        · intro e he hrel
          rw [List.append_nil] at he
          exact htargets e he hrel
        · intro e he e' he' hrel hrel' htt
          rw [List.append_nil] at he he'
          exact huniq e he e' he' hrel hrel' htt
        · rw [List.append_nil]
          exact hpair
      | cons cur ctail =>
        have hhcne : ("HAS_CHUNK" : String) ≠ "HAS_SUBSECTION" := by decide
        refine ih (cur :: ctail) nodes
          (edges ++ [⟨cur.1, "chunk_" ++ r.chunk_id, "HAS_CHUNK"⟩]) hnodup' ?_ hfreshr hnn
          ?_ ?_ ?_ ?_
        · intro p hp
          exact hstack p (hstk ▸ hp)
        · intro e he hrel
          rcases List.mem_append.mp he with he | he
          · exact hedges e he hrel
          · simp only [List.mem_singleton] at he
            subst he
            exact absurd hrel hhcne
        · intro e he hrel
          rcases List.mem_append.mp he with he | he
          · exact htargets e he hrel
          · simp only [List.mem_singleton] at he
            subst he
            exact absurd hrel hhcne
        · intro e he e' he' hrel hrel' htt
          rcases List.mem_append.mp he with he | he
          · rcases List.mem_append.mp he' with he' | he'
            · exact huniq e he e' he' hrel hrel' htt
            · simp only [List.mem_singleton] at he'
              subst he'
              exact absurd hrel' hhcne
          · simp only [List.mem_singleton] at he
            subst he
            exact absurd hrel hhcne
        · have hf : (([⟨cur.1, "chunk_" ++ r.chunk_id, "HAS_CHUNK"⟩] :
              List GEdge).filter (fun e => e.relation == "HAS_SUBSECTION")) = [] := by simp
          rw [List.filter_append, hf, List.append_nil]
          exact hpair

/-- One `HAS_SUBSECTION` step between section ids in the emitted edge
set. -/
def hsStep (edges : List GEdge) (a b : String) : Prop :=
  ∃ e ∈ edges, e.relation = "HAS_SUBSECTION" ∧ e.source = a ∧ e.target = b

/-- C5: on every row sequence with distinct chunk ids that the hierarchy
builder accepts, the emitted `HAS_SUBSECTION` edges form a forest: every
such edge goes from a node emitted (pushed) strictly earlier to one
emitted strictly later with a strictly larger level, no section receives
two distinct incoming `HAS_SUBSECTION` edges, and no section is its own
ancestor. -/
theorem c5_hierarchy_forest (rows : List CRow)
    (hnodup : (rows.map (·.chunk_id)).Nodup)
    (nodes : List SNode) (edges : List GEdge)
    (hok : hierarchyBuild rows = .ok (nodes, edges)) :
    (∀ e ∈ edges, e.relation = "HAS_SUBSECTION" → edgeOk nodes e) ∧
    ((edges.filter (fun e => e.relation == "HAS_SUBSECTION")).Pairwise
      (fun e e' => e.target ≠ e'.target)) ∧
    (∀ s : String, ¬ Relation.TransGen (hsStep edges) s s) := by
  unfold hierarchyBuild at hok
  cases hdet : detect_section_levels rows with
  | error err =>
    rw [hdet] at hok
    cases hok
  | ok m =>
    rw [hdet] at hok
    injection hok with hok'
    have H := hierGo_inv m rows [] [] [] hnodup (by intro p hp; cases hp)
      (by intro n hn; cases hn) (by simp) (by intro e he; cases he)
      (by intro e he; cases he) (by intro e he; cases he) (by simp)
    rw [hok'] at H
    obtain ⟨hedges, hnn, huniq, hpair⟩ := H
    refine ⟨hedges, hpair, ?_⟩
    intro s hcyc
    have hstep_lt : ∀ a b, hsStep edges a b →
        (nodes.map (·.id)).indexOf a < (nodes.map (·.id)).indexOf b := by
      rintro a b ⟨e, he, hrel, hsa, hta⟩
      obtain ⟨i, j, hi, hj, hij, hs, ht, _⟩ := hedges e he hrel
      have hib : i < (nodes.map (·.id)).length := by simpa using hi
      have hjb' : j < (nodes.map (·.id)).length := by simpa using hj
      have hia : (nodes.map (·.id)).indexOf a = i := by
        have hmi : (nodes.map (·.id))[i] = a := by
          rw [List.getElem_map]
          rw [hs, hsa]
        rw [← hmi]
        exact List.indexOf_getElem hnn i _
      have hjb : (nodes.map (·.id)).indexOf b = j := by
        have hmj : (nodes.map (·.id))[j] = b := by
          rw [List.getElem_map]
          rw [ht, hta]
        rw [← hmj]
        exact List.indexOf_getElem hnn j _
      omega
    have hmono : ∀ a b, Relation.TransGen (hsStep edges) a b →
        (nodes.map (·.id)).indexOf a < (nodes.map (·.id)).indexOf b := by
      intro a b h
      induction h with
      | single h => exact hstep_lt _ _ h
      | tail _ hstep ihm => exact lt_trans ihm (hstep_lt _ _ hstep)
    exact absurd (hmono s s hcyc) (lt_irrefl _)

/-- The section nodes of the hierarchy built on [[levelRows]]. -/
def levelNodes : List SNode :=
  [mkSNode "section_c1" 1 (mkRow "c1" "paragraph" 16),
   mkSNode "section_c2" 2 (mkRow "c2" "paragraph" 14)]

/-- The edges of the hierarchy built on [[levelRows]]. -/
def levelEdges : List GEdge :=
  [⟨"section_c1", "chunk_c1", "HAS_CHUNK"⟩,
   ⟨"section_c1", "section_c2", "HAS_SUBSECTION"⟩,
   ⟨"section_c2", "chunk_c2", "HAS_CHUNK"⟩,
   ⟨"section_c2", "chunk_c3", "HAS_CHUNK"⟩]

/-- C5 witness: the forest property on the concrete three-row input. -/
theorem c5_hierarchy_forest_witness :
    ((levelRows.map (·.chunk_id)).Nodup) ∧
    (hierarchyBuild levelRows = .ok (levelNodes, levelEdges)) ∧
    ((∀ e ∈ levelEdges, e.relation = "HAS_SUBSECTION" → edgeOk levelNodes e) ∧
     ((levelEdges.filter (fun e => e.relation == "HAS_SUBSECTION")).Pairwise
        (fun e e' => e.target ≠ e'.target)) ∧
     (∀ s : String, ¬ Relation.TransGen (hsStep levelEdges) s s)) :=
  ⟨by decide, by decide,
    c5_hierarchy_forest levelRows (by decide) levelNodes levelEdges (by decide)⟩

end BugsyOntology
